import Mathlib

/-!
Shallow embedding of the opencode-antigravity-auth plugin.

The TypeScript sources are translated into executable Lean definitions:

* `src/plugin.ts` — `retryAfterMsFromResponse`, the endpoint-fallback /
  429 handling inside the `fetch` loop, `persistAccountPool`, `clampInt`;
* `src/plugin/storage.ts` — `AccountMetadata`, `deduplicateAccountsByEmail`;
* `src/transform/gemini.ts` — `normalizeGeminiTools` and its placeholder
  schema;
* `src/plugin/request.ts` — `resolveThinkingConfig` inputs, the Claude
  tool-path `normalizeSchema`, the functionCall / functionResponse id
  backfill, the thinking-recovery trigger, and the buffered error-response
  handling of `transformAntigravityResponse`;
* `src/plugin/thinking-recovery.ts` — `analyzeConversationState`,
  `stripAllThinkingBlocks`, `countTrailingToolResults`,
  `closeToolLoopForThinking`, `needsThinkingRecovery`.

JavaScript-specific behaviour is made explicit: string truthiness (the
empty string is falsy), `Number.parseInt` prefix parsing, nullish
coalescing on optional fields.  JS objects that the code only inspects
through a fixed set of fields are modelled as structures with exactly
those fields; `Map` objects are modelled as functions with pointwise
update.
-/

/-- JavaScript truthiness of an optional string: `undefined`/`null` and the
empty string are falsy, every other string is truthy. -/
def strTruthy : Option String → Bool
  | none => false
  | some s => s ≠ ""

/-- Whitespace characters skipped by `Number.parseInt`. -/
def jsSpace (c : Char) : Bool :=
  c == ' ' || c == '\t' || c == '\n' || c == '\r'

/-- Numeric value of a list of decimal digit characters. -/
def digitsVal (ds : List Char) : Nat :=
  ds.foldl (fun n c => 10 * n + (c.toNat - 48)) 0

/-- Longest leading run of decimal digits,`none` when there is none
(`parseInt` then yields `NaN`). -/
def leadingDigits (cs : List Char) : Option Nat :=
  let ds := cs.takeWhile Char.isDigit
  if ds.isEmpty then none else some (digitsVal ds)

/-- `Number.parseInt(s, 10)`: skip leading whitespace, read an optional
sign and then the longest digit prefix; `none` models `NaN`. -/
def parseIntJS (s : String) : Option Int :=
  let cs := s.toList.dropWhile jsSpace
  match cs with
  | '-' :: rest => (leadingDigits rest).map (fun n => -(n : Int))
  | '+' :: rest => (leadingDigits rest).map (fun n => (n : Int))
  | _ => (leadingDigits cs).map (fun n => (n : Int))

/-- Fallback half of `retryAfterMsFromResponse` (src/plugin.ts lines
226-234): the seconds header times 1000, else the 60 s default. -/
def retryAfterSecondsMs (retryAfterHeader : Option String) : Nat :=
  if strTruthy retryAfterHeader then
    match parseIntJS (retryAfterHeader.getD "") with
    | some parsed => if 0 < parsed then parsed.toNat * 1000 else 60000
    | none => 60000
  else 60000

/-- `retryAfterMsFromResponse` (src/plugin.ts lines 217-235): prefer the
`retry-after-ms` header when it parses to a positive integer, else the
`retry-after` header times 1000, else 60000 ms. -/
def retryAfterMsFromResponse (retryAfterMsHeader retryAfterHeader : Option String) : Nat :=
  if strTruthy retryAfterMsHeader then
    match parseIntJS (retryAfterMsHeader.getD "") with
    | some parsed => if 0 < parsed then parsed.toNat else retryAfterSecondsMs retryAfterHeader
    | none => retryAfterSecondsMs retryAfterHeader
  else retryAfterSecondsMs retryAfterHeader

/-- Specification-side reading of one retry header: the positive integer it
parses to, if any.  Stated from the claim wording, to compare against
`retryAfterMsFromResponse`. -/
def retryHintPos (header : Option String) : Option Nat :=
  if strTruthy header then
    match parseIntJS (header.getD "") with
    | some p => if 0 < p then some p.toNat else none
    | none => none
  else none

/-- Result of one upstream call attempt in the endpoint-fallback loop:
either `fetch` threw, or a response with a status and the two retry
headers arrived. -/
inductive Attempt
  | throws
  | responds (status : Nat) (retryAfterMsHeader retryAfterHeader : Option String)
  deriving DecidableEq

/-- Exit of the endpoint-fallback loop of src/plugin.ts lines 515-643 for
one account pass. -/
inductive LoopResult
  /-- `transformAntigravityResponse` of endpoint `endpointIdx`'s response
  is returned (success, non-retryable error, or endpoints exhausted). -/
  | returned (endpointIdx status : Nat)
  /-- 429: the account was marked rate-limited with `cooldownMs` and the
  outer loop switches accounts; `slept` records the single-account
  sleep-then-retry branch. -/
  | rateLimitedSwitch (endpointIdx cooldownMs : Nat) (slept : Bool)
  /-- `fetch` threw on the last endpoint: switch accounts. -/
  | thrownSwitch
  /-- Loop body never ran (no endpoints). -/
  | exhausted (lastFailure : Option (Nat × Nat))
  deriving DecidableEq

/-- Status classification of src/plugin.ts lines 597-601: 403, 404 and
5xx advance to the next endpoint when one remains. -/
def shouldRetryEndpoint (status : Nat) : Bool :=
  status == 403 || status == 404 || decide (500 ≤ status)

/-- Endpoint-fallback loop of src/plugin.ts lines 515-643, from endpoint
`i` with `remaining` endpoints left (`remaining = 1` means `i` is the
last endpoint) and the running `lastFailure` of `(endpointIdx, status)`.
`f` gives each endpoint's attempt outcome; `accountCount` drives the 429
single-account branch. -/
def tryEndpointsFrom (f : Nat → Attempt) (accountCount : Nat) :
    Nat → Nat → Option (Nat × Nat) → LoopResult
  | _, 0, lastFailure => .exhausted lastFailure
  | i, remaining + 1, lastFailure =>
    match f i with
    | .throws =>
      if remaining = 0 then .thrownSwitch
      else tryEndpointsFrom f accountCount (i + 1) remaining lastFailure
    | .responds status msHeader sHeader =>
      if status = 429 then
        .rateLimitedSwitch i (retryAfterMsFromResponse msHeader sHeader)
          (decide (accountCount ≤ 1))
      else if shouldRetryEndpoint status ∧ remaining ≠ 0 then
        tryEndpointsFrom f accountCount (i + 1) remaining (some (i, status))
      else .returned i status

/-- Endpoint-fallback loop over `numEndpoints` endpoints starting at the
first one, mirroring the `for` loop entry of src/plugin.ts line 515. -/
def tryEndpoints (f : Nat → Attempt) (accountCount numEndpoints : Nat) : LoopResult :=
  tryEndpointsFrom f accountCount 0 numEndpoints none

/-- Normalized thinking configuration (`ThinkingConfig` of
src/transform/types.ts): both fields optional. -/
structure ThinkingConfig where
  thinkingBudget : Option Nat := none
  includeThoughts : Option Bool := none
  deriving DecidableEq

/-- `DEFAULT_THINKING_BUDGET` of src/plugin/request-helpers.ts. -/
def DEFAULT_THINKING_BUDGET : Nat := 16000

/-- Substring containment check, the embedding of `String.includes`. -/
def strIncludes (s sub : String) : Bool :=
  (s.splitOn sub).length != 1

/-- `isThinkingCapableModel` (src/plugin/request-helpers.ts): model names
containing "thinking", "gemini-3" or "opus" support extended thinking. -/
def isThinkingCapableModel (modelName : String) : Bool :=
  let lowerModel := modelName.toLower
  strIncludes lowerModel "thinking" || strIncludes lowerModel "gemini-3" ||
    strIncludes lowerModel "opus"

/-- `resolveThinkingConfig` (src/plugin/request-helpers.ts lines 983-998):
Claude models with assistant history get thinking forced off; a
thinking-capable model without an explicit user config defaults to
enabled with the fixed default budget; otherwise the user config is
passed through. -/
def resolveThinkingConfig (userConfig : Option ThinkingConfig)
    (isThinkingModel isClaudeModel hasAssistantHistory : Bool) :
    Option ThinkingConfig :=
  if isClaudeModel && hasAssistantHistory then
    some { includeThoughts := some false, thinkingBudget := some 0 }
  else if isThinkingModel && userConfig.isNone then
    some { includeThoughts := some true, thinkingBudget := some DEFAULT_THINKING_BUDGET }
  else userConfig

/-- Function-call payload of a Gemini-style part (`part.functionCall`):
only the fields the plugin reads. -/
structure FnCall where
  name : Option String := none
  id : Option String := none
  deriving DecidableEq

/-- Function-response payload of a Gemini-style part
(`part.functionResponse`): only the fields the plugin reads. -/
structure FnResp where
  name : Option String := none
  id : Option String := none
  deriving DecidableEq

/-- Message part / content block, restricted to the fields inspected by
the plugin: the Gemini `thought` flag, the Anthropic `type` tag, text,
and function call / response payloads. -/
structure GPart where
  thought : Bool := false
  type : Option String := none
  text : Option String := none
  functionCall : Option FnCall := none
  functionResponse : Option FnResp := none
  deriving DecidableEq

/-- Conversation message: a role plus either a Gemini-style `parts` array
or an Anthropic-style `content` array (absent arrays are `none`). -/
structure Content where
  role : String := "user"
  parts : Option (List GPart) := none
  content : Option (List GPart) := none
  deriving DecidableEq

/-- `hasAssistantHistory` computed in `prepareAntigravityRequest`
(src/plugin/request.ts lines 883-884): some content has role "model" or
"assistant". -/
def hasAssistantHistory (contents : List Content) : Bool :=
  contents.any (fun c => c.role == "model" || c.role == "assistant")

/-- `isThinkingPart` (src/plugin/thinking-recovery.ts lines 41-48). -/
def isThinkingPart (part : GPart) : Bool :=
  part.thought || part.type == some "thinking" || part.type == some "redacted_thinking"

/-- Anthropic-style thinking block test used on `content` arrays
(src/plugin/thinking-recovery.ts lines 86-89). -/
def isThinkingBlock (block : GPart) : Bool :=
  block.type == some "thinking" || block.type == some "redacted_thinking"

/-- `isFunctionResponsePart` (src/plugin/thinking-recovery.ts). -/
def isFunctionResponsePart (part : GPart) : Bool :=
  part.functionResponse.isSome

/-- `isFunctionCallPart` (src/plugin/thinking-recovery.ts). -/
def isFunctionCallPart (part : GPart) : Bool :=
  part.functionCall.isSome

/-- `isToolResultMessage` (src/plugin/thinking-recovery.ts lines 67-71):
user role with some functionResponse part. -/
def isToolResultMessage (msg : Content) : Bool :=
  msg.role == "user" && (msg.parts.getD []).any isFunctionResponsePart

/-- `messageHasThinking` (src/plugin/thinking-recovery.ts lines 76-93). -/
def messageHasThinking (msg : Content) : Bool :=
  match msg.parts with
  | some parts => parts.any isThinkingPart
  | none =>
    match msg.content with
    | some blocks => blocks.any isThinkingBlock
    | none => false

/-- `messageHasToolCalls` (src/plugin/thinking-recovery.ts lines 98-112). -/
def messageHasToolCalls (msg : Content) : Bool :=
  match msg.parts with
  | some parts => parts.any isFunctionCallPart
  | none =>
    match msg.content with
    | some blocks => blocks.any (fun b => b.type == some "tool_use")
    | none => false

/-- Conversation state computed by `analyzeConversationState`
(src/plugin/thinking-recovery.ts lines 19-32); `-1` sentinels as in the
source. -/
structure ConversationState where
  inToolLoop : Bool := false
  turnStartIdx : Int := -1
  turnHasThinking : Bool := false
  lastModelIdx : Int := -1
  lastModelHasThinking : Bool := false
  lastModelHasToolCalls : Bool := false
  deriving DecidableEq

/-- First pass of `analyzeConversationState`: index of the last user
message that is not a tool result, `-1` when there is none. -/
def lastRealUserIdx (contents : List Content) : Int :=
  contents.enum.foldl
    (fun acc p =>
      if p.2.role == "user" && !isToolResultMessage p.2 then (p.1 : Int) else acc)
    (-1)

/-- `analyzeConversationState` (src/plugin/thinking-recovery.ts lines
125-179): find turn boundaries and whether the turn that issued pending
tool calls started with thinking. -/
def analyzeConversationState (contents : List Content) : ConversationState :=
  if contents.isEmpty then {} else
  let lru := lastRealUserIdx contents
  let st := contents.enum.foldl
    (fun st p =>
      let i : Int := (p.1 : Int)
      let msg := p.2
      if msg.role == "model" || msg.role == "assistant" then
        let hasThinking := messageHasThinking msg
        let hasToolCalls := messageHasToolCalls msg
        let st :=
          if lru < i ∧ st.turnStartIdx = -1 then
            { st with turnStartIdx := i, turnHasThinking := hasThinking }
          else st
        { st with lastModelIdx := i, lastModelHasToolCalls := hasToolCalls,
                  lastModelHasThinking := hasThinking }
      else st)
    ({} : ConversationState)
  match contents.getLast? with
  | some lastMsg =>
    if lastMsg.role == "user" && isToolResultMessage lastMsg then
      { st with inToolLoop := true }
    else st
  | none => st

/-- `needsThinkingRecovery` (src/plugin/thinking-recovery.ts lines
305-307): in a tool loop whose turn did not start with thinking. -/
def needsThinkingRecovery (state : ConversationState) : Bool :=
  state.inToolLoop && !state.turnHasThinking

/-- Per-message step of `stripAllThinkingBlocks`
(src/plugin/thinking-recovery.ts lines 189-219): filter thinking parts
out, but keep the message unchanged when filtering would leave it empty
while it was not. -/
def stripMsgThinking (content : Content) : Content :=
  match content.parts with
  | some parts =>
    let filteredParts := parts.filter (fun part => !isThinkingPart part)
    if filteredParts.isEmpty && !parts.isEmpty then content
    else { content with parts := some filteredParts }
  | none =>
    match content.content with
    | some blocks =>
      let filteredContent := blocks.filter (fun b => !isThinkingBlock b)
      if filteredContent.isEmpty && !blocks.isEmpty then content
      else { content with content := some filteredContent }
    | none => content

/-- `stripAllThinkingBlocks` (src/plugin/thinking-recovery.ts lines
189-219). -/
def stripAllThinkingBlocks (contents : List Content) : List Content :=
  contents.map stripMsgThinking

/-- `countTrailingToolResults` walked from the end of the conversation;
this recursion processes the reversed list
(src/plugin/thinking-recovery.ts lines 224-245). -/
def countTrailingToolResultsRev : List Content → Nat
  | [] => 0
  | msg :: rest =>
    if msg.role == "user" then
      let fr := (msg.parts.getD []).filter isFunctionResponsePart
      if 0 < fr.length then fr.length + countTrailingToolResultsRev rest else 0
    else if msg.role == "model" || msg.role == "assistant" then 0
    else countTrailingToolResultsRev rest

/-- `countTrailingToolResults` (src/plugin/thinking-recovery.ts lines
224-245). -/
def countTrailingToolResults (contents : List Content) : Nat :=
  countTrailingToolResultsRev contents.reverse

/-- Text of the synthetic model message injected by
`closeToolLoopForThinking`, keyed on the trailing tool-result count
(src/plugin/thinking-recovery.ts lines 271-279). -/
def syntheticModelText (toolResultCount : Nat) : String :=
  if toolResultCount = 0 then "[Processing previous context.]"
  else if toolResultCount = 1 then "[Tool execution completed.]"
  else "[" ++ toString toolResultCount ++ " tool executions completed.]"

/-- Synthetic model message closing the corrupted turn
(src/plugin/thinking-recovery.ts lines 282-285). -/
def syntheticModelMsg (txt : String) : Content :=
  { role := "model", parts := some [{ text := some txt }] }

/-- Synthetic user message starting the fresh turn
(src/plugin/thinking-recovery.ts lines 288-291). -/
def syntheticUserMsg : Content :=
  { role := "user", parts := some [{ text := some "[Continue]" }] }

/-- `closeToolLoopForThinking` (src/plugin/thinking-recovery.ts lines
264-294): strip thinking, then append the synthetic model and user
messages. -/
def closeToolLoopForThinking (contents : List Content) : List Content :=
  let strippedContents := stripAllThinkingBlocks contents
  let toolResultCount := countTrailingToolResults strippedContents
  strippedContents ++
    [syntheticModelMsg (syntheticModelText toolResultCount), syntheticUserMsg]

/-- Cached signed thinking entry of `lastSignedThinkingBySessionKey`
(src/plugin/request.ts lines 46-52). -/
structure SignedThinking where
  text : String
  signature : String
  deriving DecidableEq

/-- Thinking-recovery trigger block of `prepareAntigravityRequest`
(src/plugin/request.ts lines 1289-1305), for a Claude thinking model with
a `contents` array: when `needsThinkingRecovery` holds on the analyzed
state, close the tool loop and delete the session's cached last signed
thinking; otherwise leave both unchanged. -/
def thinkingRecoveryStep (contents : List Content)
    (lastSignedThinkingBySessionKey : String → Option SignedThinking)
    (signatureSessionKey : String) :
    List Content × (String → Option SignedThinking) :=
  if needsThinkingRecovery (analyzeConversationState contents) then
    (closeToolLoopForThinking contents,
      fun k => if k = signatureSessionKey then none else lastSignedThinkingBySessionKey k)
  else (contents, lastSignedThinkingBySessionKey)

/-- State threaded through the first backfill pass of
src/plugin/request.ts lines 1219-1247: the `toolCallCounter` and the
per-name FIFO queues `pendingCallIdsByName` (a `Map` modelled as a
function defaulting to the empty queue). -/
structure BackfillState where
  toolCallCounter : Nat
  pendingCallIdsByName : String → List String

/-- First-pass step for one part (src/plugin/request.ts lines 1230-1244):
assign an id to a `functionCall` missing one and push the call's id onto
the queue of its name key. -/
def backfillCallPart (part : GPart) (st : BackfillState) : GPart × BackfillState :=
  match part.functionCall with
  | some call =>
    let assign := !strTruthy call.id
    let counter := if assign then st.toolCallCounter + 1 else st.toolCallCounter
    let callId := if assign then "tool-call-" ++ toString counter else call.id.getD ""
    let nameKey :=
      match call.name with
      | some n => n
      | none => "tool-" ++ toString counter
    let queue := st.pendingCallIdsByName nameKey
    ({ part with functionCall := some { call with id := some callId } },
     { toolCallCounter := counter,
       pendingCallIdsByName :=
         fun n => if n = nameKey then queue ++ [callId] else st.pendingCallIdsByName n })
  | none => (part, st)

/-- First pass over a parts array. -/
def backfillCallParts : List GPart → BackfillState → List GPart × BackfillState
  | [], st => ([], st)
  | p :: ps, st =>
    let r := backfillCallPart p st
    let rs := backfillCallParts ps r.2
    (r.1 :: rs.1, rs.2)

/-- First pass over the `contents` array (messages without a parts array
are left unchanged, src/plugin/request.ts lines 1225-1227). -/
def backfillCallContents : List Content → BackfillState → List Content × BackfillState
  | [], st => ([], st)
  | c :: cs, st =>
    match c.parts with
    | some parts =>
      let r := backfillCallParts parts st
      let rs := backfillCallContents cs r.2
      ({ c with parts := some r.1 } :: rs.1, rs.2)
    | none =>
      let rs := backfillCallContents cs st
      (c :: rs.1, rs.2)

/-- Second-pass step for one part (src/plugin/request.ts lines 1255-1269):
a `functionResponse` with a falsy id and a string name consumes the head
of its name's queue, when non-empty. -/
def backfillRespPart (part : GPart) (q : String → List String) :
    GPart × (String → List String) :=
  match part.functionResponse with
  | some resp =>
    if strTruthy resp.id then (part, q)
    else
      match resp.name with
      | some n =>
        match q n with
        | [] => ({ part with functionResponse := some resp }, q)
        | c :: rest =>
          ({ part with functionResponse := some { resp with id := some c } },
           fun m => if m = n then rest else q m)
      | none => (part, q)
  | none => (part, q)

/-- Second pass over a parts array. -/
def backfillRespParts : List GPart → (String → List String) →
    List GPart × (String → List String)
  | [], q => ([], q)
  | p :: ps, q =>
    let r := backfillRespPart p q
    let rs := backfillRespParts ps r.2
    (r.1 :: rs.1, rs.2)

/-- Second pass over the `contents` array. -/
def backfillRespContents : List Content → (String → List String) →
    List Content × (String → List String)
  | [], q => ([], q)
  | c :: cs, q =>
    match c.parts with
    | some parts =>
      let r := backfillRespParts parts q
      let rs := backfillRespContents cs r.2
      ({ c with parts := some r.1 } :: rs.1, rs.2)
    | none =>
      let rs := backfillRespContents cs q
      (c :: rs.1, rs.2)

/-- Two-pass functionCall / functionResponse id backfill of
`prepareAntigravityRequest` (src/plugin/request.ts lines 1219-1273). -/
def backfillToolCallIds (contents : List Content) : List Content :=
  let r1 := backfillCallContents contents ⟨0, fun _ => []⟩
  (backfillRespContents r1.1 r1.2.pendingCallIdsByName).1

/-- Ids of the functionCall parts with declaration name `n`, in order of
appearance, read off a post-first-pass contents array (every call then
carries an id). -/
def callIdsNamed (n : String) (contents : List Content) : List String :=
  (contents.flatMap (fun c => c.parts.getD [])).filterMap
    (fun p =>
      match p.functionCall with
      | some call => if call.name = some n then some (call.id.getD "") else none
      | none => none)

/-- Specification-side second pass, stated from the claim wording: each
id-less functionResponse with name `n` receives the `cnt n`-th element of
the ordered list `Q0 n` of functionCall ids for that name — the earliest
not-yet-consumed call, first-in-first-out per name. -/
def fifoRespPart (Q0 : String → List String) (part : GPart) (cnt : String → Nat) :
    GPart × (String → Nat) :=
  match part.functionResponse with
  | some resp =>
    if strTruthy resp.id then (part, cnt)
    else
      match resp.name with
      | some n =>
        match (Q0 n)[cnt n]? with
        | some c =>
          ({ part with functionResponse := some { resp with id := some c } },
           fun m => if m = n then cnt n + 1 else cnt m)
        | none => ({ part with functionResponse := some resp }, cnt)
      | none => (part, cnt)
  | none => (part, cnt)

/-- Specification-side second pass over a parts array. -/
def fifoRespParts (Q0 : String → List String) :
    List GPart → (String → Nat) → List GPart × (String → Nat)
  | [], cnt => ([], cnt)
  | p :: ps, cnt =>
    let r := fifoRespPart Q0 p cnt
    let rs := fifoRespParts Q0 ps r.2
    (r.1 :: rs.1, rs.2)

/-- Specification-side second pass over the contents array. -/
def fifoRespContents (Q0 : String → List String) :
    List Content → (String → Nat) → List Content × (String → Nat)
  | [], cnt => ([], cnt)
  | c :: cs, cnt =>
    match c.parts with
    | some parts =>
      let r := fifoRespParts Q0 parts cnt
      let rs := fifoRespContents Q0 cs r.2
      ({ c with parts := some r.1 } :: rs.1, rs.2)
    | none =>
      let rs := fifoRespContents Q0 cs cnt
      (c :: rs.1, rs.2)

/-- Every functionCall part of the contents carries a declaration name
(the claim's matching is by declaration name). -/
def allCallsNamed (contents : List Content) : Bool :=
  contents.all (fun c => (c.parts.getD []).all (fun p =>
    match p.functionCall with
    | some call => call.name.isSome
    | none => true))

/-- Property entry of a JSON-schema `properties` object; the plugin only
copies these through, so the payload is reduced to the two fields the
placeholder uses. -/
structure PropField where
  type : String
  description : String
  deriving DecidableEq

/-- JSON value sitting in a schema position.  `obj` keeps the fields
`normalizeGeminiTools` reads or writes (`$schema`, `type`, `properties`,
`required`); `nonObject` stands for any truthy non-object value (the
source also treats arrays this way on the Gemini path). -/
inductive SchemaJson
  | obj (dollarSchema : Option String) (type : Option String)
      (properties : Option (List (String × PropField)))
      (required : Option (List String))
  | nonObject
  deriving DecidableEq

/-- Placeholder `properties` of the Gemini-path `placeholderSchema`
(src/transform/gemini.ts lines 712-721): one `_placeholder` boolean. -/
def geminiPlaceholderProps : List (String × PropField) :=
  [("_placeholder", { type := "boolean", description := "Placeholder. Always pass true." })]

/-- The Gemini-path `placeholderSchema` constant
(src/transform/gemini.ts lines 712-721). -/
def geminiPlaceholderSchema : SchemaJson :=
  .obj none (some "object") (some geminiPlaceholderProps) (some ["_placeholder"])

/-- `normalizeSchema` inside `normalizeGeminiTools` (src/transform/gemini.ts
lines 723-754), returning the cleaned schema and the `toolDebugMissing`
increment (1 exactly when no usable schema was supplied). -/
def normalizeGeminiSchema (schema : Option SchemaJson) : SchemaJson × Nat :=
  match schema with
  | none => (geminiPlaceholderSchema, 1)
  | some .nonObject => (geminiPlaceholderSchema, 1)
  | some (.obj _ _ properties required) =>
    let hasProperties :=
      match properties with
      | some props => !props.isEmpty
      | none => false
    if hasProperties then (.obj none (some "object") properties required, 0)
    else (.obj none (some "object") (some geminiPlaceholderProps) (some ["_placeholder"]), 0)

/-- Tool declaration object (an entry of `functionDeclarations`, or the
`function` / `custom` member of a tool), with the fields the plugin
reads. -/
structure ToolDecl where
  name : Option String := none
  description : Option String := none
  parameters : Option SchemaJson := none
  parametersJsonSchema : Option SchemaJson := none
  input_schema : Option SchemaJson := none
  inputSchema : Option SchemaJson := none
  deriving DecidableEq

/-- Inbound tool entry of `payload.tools`, with the fields the plugin
reads.  A non-function entry (for example `codeExecution`) has all of
these absent. -/
structure ToolObj where
  name : Option String := none
  description : Option String := none
  parameters : Option SchemaJson := none
  parametersJsonSchema : Option SchemaJson := none
  input_schema : Option SchemaJson := none
  inputSchema : Option SchemaJson := none
  function : Option ToolDecl := none
  custom : Option ToolDecl := none
  functionDeclarations : Option (List ToolDecl) := none
  deriving DecidableEq

/-- JS `||` on optional strings: the left operand unless it is falsy. -/
def orTruthy (a b : Option String) : Option String :=
  if strTruthy a then a else b

/-- View of a tool object as a declaration, used when `pushDeclaration`
receives the tool itself (the `?? t` arm of src/transform/gemini.ts line
815). -/
def toolAsDecl (t : ToolObj) : ToolDecl :=
  { name := t.name, description := t.description, parameters := t.parameters,
    parametersJsonSchema := t.parametersJsonSchema, input_schema := t.input_schema,
    inputSchema := t.inputSchema }

/-- Schema resolution chain of `pushDeclaration`
(src/transform/gemini.ts lines 760-772): first truthy value wins. -/
def resolveDeclSchema (t : ToolObj) (decl : Option ToolDecl) : Option SchemaJson :=
  (decl.bind (·.parameters)) <|> (decl.bind (·.parametersJsonSchema)) <|>
    (decl.bind (·.input_schema)) <|> (decl.bind (·.inputSchema)) <|>
    t.parameters <|> t.parametersJsonSchema <|> t.input_schema <|> t.inputSchema <|>
    (t.function.bind (·.parameters)) <|> (t.function.bind (·.input_schema)) <|>
    (t.custom.bind (·.parameters)) <|> (t.custom.bind (·.input_schema))

/-- Tool-name sanitizer of src/transform/gemini.ts line 782: non
`[a-zA-Z0-9_-]` characters become `_`, truncated to 64. -/
def sanitizeToolName (name : String) : String :=
  String.mk ((name.toList.map
    (fun c => if c.isAlphanum || c == '_' || c == '-' then c else '_')).take 64)

/-- Accumulator of `normalizeGeminiTools`: collected declarations,
passthrough tools, `toolDebugMissing` count and per-declaration summary
lines. -/
structure GeminiToolsAcc where
  decls : List (String × String × SchemaJson) := []
  passthroughTools : List ToolObj := []
  missing : Nat := 0
  summaries : List String := []
  deriving DecidableEq

/-- `pushDeclaration` of `normalizeGeminiTools`
(src/transform/gemini.ts lines 759-800): resolve schema, name and
description, normalize the schema, append the declaration and one
summary line. -/
def pushGeminiDeclaration (t : ToolObj) (decl : Option ToolDecl) (source : String)
    (acc : GeminiToolsAcc) : GeminiToolsAcc :=
  let schema := resolveDeclSchema t decl
  let rawName :=
    (orTruthy (decl.bind (·.name)) (orTruthy t.name
      (orTruthy (t.function.bind (·.name)) (t.custom.bind (·.name))))).getD
      ("tool-" ++ toString acc.decls.length)
  let name := sanitizeToolName rawName
  let description :=
    (orTruthy (decl.bind (·.description)) (orTruthy t.description
      (orTruthy (t.function.bind (·.description)) (t.custom.bind (·.description))))).getD ""
  let norm := normalizeGeminiSchema schema
  { acc with
    decls := acc.decls ++ [(name, description, norm.1)],
    missing := acc.missing + norm.2,
    summaries := acc.summaries ++
      ["decl=" ++ name ++ ",src=" ++ source ++ ",hasSchema=" ++
        (if schema.isSome then "y" else "n")] }

/-- Fallback condition of src/transform/gemini.ts line 811: the tool has a
`function`, `custom`, schema field or truthy `name`. -/
def geminiFallbackCond (t : ToolObj) : Bool :=
  t.function.isSome || t.custom.isSome || t.parameters.isSome ||
    t.input_schema.isSome || t.inputSchema.isSome || strTruthy t.name

/-- Per-tool step of `normalizeGeminiTools`
(src/transform/gemini.ts lines 756-823). -/
def normalizeGeminiTool (t : ToolObj) (acc : GeminiToolsAcc) : GeminiToolsAcc :=
  match t.functionDeclarations with
  | some decls =>
    if !decls.isEmpty then
      decls.foldl (fun a d => pushGeminiDeclaration t (some d) "functionDeclarations" a) acc
    else if geminiFallbackCond t then
      pushGeminiDeclaration t (some ((t.function.getD (t.custom.getD (toolAsDecl t)))))
        "function/custom" acc
    else { acc with passthroughTools := acc.passthroughTools ++ [t] }
  | none =>
    if geminiFallbackCond t then
      pushGeminiDeclaration t (some ((t.function.getD (t.custom.getD (toolAsDecl t)))))
        "function/custom" acc
    else { acc with passthroughTools := acc.passthroughTools ++ [t] }

/-- Output tool entry after normalization: either the single
`{ functionDeclarations }` wrapper or an untouched passthrough tool. -/
inductive OutTool
  | functionDeclarations (decls : List (String × String × SchemaJson))
  | passthrough (tool : ToolObj)
  deriving DecidableEq

/-- `normalizeGeminiTools` (src/transform/gemini.ts lines 699-832):
rewritten tools plus the `toolDebugMissing` count and the
`toolDebugSummaries` lines. -/
def normalizeGeminiTools (tools : List ToolObj) : List OutTool × Nat × List String :=
  let acc := tools.foldl (fun a t => normalizeGeminiTool t a) {}
  let finalTools :=
    (if !acc.decls.isEmpty then [OutTool.functionDeclarations acc.decls] else [])
      ++ acc.passthroughTools.map OutTool.passthrough
  (finalTools, acc.missing, acc.summaries)

/-- Number of declarations `normalizeGeminiTools` pushes for one tool. -/
def toolDeclCount (t : ToolObj) : Nat :=
  match t.functionDeclarations with
  | some decls =>
    if !decls.isEmpty then decls.length
    else if geminiFallbackCond t then 1 else 0
  | none => if geminiFallbackCond t then 1 else 0

/-- Whether a resolved schema position counts as unusable (missing or a
non-object), the condition under which the placeholder is substituted
and counted. -/
def schemaUnusable : Option SchemaJson → Bool
  | none => true
  | some .nonObject => true
  | some (.obj _ _ _ _) => false

/-- Number of unusable-schema declarations `normalizeGeminiTools` counts
for one tool. -/
def toolMissingCount (t : ToolObj) : Nat :=
  match t.functionDeclarations with
  | some decls =>
    if !decls.isEmpty then
      (decls.filter (fun d => schemaUnusable (resolveDeclSchema t (some d)))).length
    else if geminiFallbackCond t then
      if schemaUnusable (resolveDeclSchema t
          (some (t.function.getD (t.custom.getD (toolAsDecl t))))) then 1 else 0
    else 0
  | none =>
    if geminiFallbackCond t then
      if schemaUnusable (resolveDeclSchema t
          (some (t.function.getD (t.custom.getD (toolAsDecl t))))) then 1 else 0
    else 0

/-- Claude tool-path placeholder schema produced by
`createPlaceholderSchema` (src/plugin/request.ts lines 1019-1029): one
required string field `reason`. -/
def claudePlaceholderProps : List (String × PropField) :=
  [("reason",
    { type := "string",
      description := "Brief explanation of why you are calling this tool" })]

/-- `createPlaceholderSchema` applied to a base object
(src/plugin/request.ts lines 1019-1029): spread the base, then force
`type`, `properties` and `required`. -/
def claudePlaceholderOn (base : SchemaJson) : SchemaJson :=
  match base with
  | .obj dollarSchema _ _ _ =>
    .obj dollarSchema (some "object") (some claudePlaceholderProps) (some ["reason"])
  | .nonObject => .obj none (some "object") (some claudePlaceholderProps) (some ["reason"])

/-- Claude tool-path `normalizeSchema` (src/plugin/request.ts lines
1018-1046).  `clean` stands in for `cleanJSONSchemaForAntigravity`
(src/plugin/request-helpers.ts, not among the provided sources); the
missing-schema branch never calls it. -/
def claudeNormalizeSchema (clean : SchemaJson → SchemaJson) (schema : Option SchemaJson) :
    SchemaJson × Nat :=
  match schema with
  | none => (claudePlaceholderOn (.obj none none none none), 1)
  | some .nonObject => (claudePlaceholderOn (.obj none none none none), 1)
  | some (.obj a b c d) =>
    let cleaned := clean (.obj a b c d)
    match cleaned with
    | .obj _ t props _ =>
      if t = some "object" && (props.getD []).isEmpty then (claudePlaceholderOn cleaned, 0)
      else (cleaned, 0)
    | .nonObject => (cleaned, 0)

/-- `AccountMetadata` of src/plugin/storage.ts lines 315-332, with the
optional rate-limit fields kept optional as in the interface. -/
structure AccountMetadata where
  email : Option String := none
  refreshToken : String := ""
  projectId : Option String := none
  managedProjectId : Option String := none
  addedAt : Nat := 0
  lastUsed : Nat := 0
  isRateLimited : Option Bool := none
  rateLimitResetTime : Option Nat := none
  deriving DecidableEq

/-- Email under JS truthiness: `undefined` and the empty string both
count as "no email" (`!acc.email`). -/
def emailKey (acc : AccountMetadata) : Option String :=
  match acc.email with
  | some e => if e = "" then none else some e
  | none => none

/-- The `isNewer` comparison of `deduplicateAccountsByEmail`
(src/plugin/storage.ts lines 414-415): strictly higher `lastUsed`, ties
broken by strictly higher `addedAt`. -/
def accIsNewer (curr existing : AccountMetadata) : Bool :=
  decide (existing.lastUsed < curr.lastUsed) ||
    (curr.lastUsed == existing.lastUsed && decide (existing.addedAt < curr.addedAt))

/-- First pass of `deduplicateAccountsByEmail`
(src/plugin/storage.ts lines 384-420) over the remaining records starting
at index `i`, threading the `emailToNewestIndex` map. -/
def dedupBestIndexAux (accounts : List AccountMetadata) :
    List AccountMetadata → Nat → (String → Option Nat) → (String → Option Nat)
  | [], _, m => m
  | a :: l, i, m =>
    let m2 :=
      match emailKey a with
      | none => m
      | some e =>
        match m e with
        | none => fun x => if x = e then some i else m x
        | some j =>
          match accounts[j]? with
          | none => fun x => if x = e then some i else m x
          | some existing =>
            if accIsNewer a existing then fun x => if x = e then some i else m x
            else m
    dedupBestIndexAux accounts l (i + 1) m2

/-- The `emailToNewestIndex` map after the first pass of
`deduplicateAccountsByEmail`. -/
def dedupBestIndex (accounts : List AccountMetadata) : String → Option Nat :=
  dedupBestIndexAux accounts accounts 0 (fun _ => none)

/-- Membership in `indicesToKeep` (src/plugin/storage.ts lines 386-424):
index of an email-less record, or a value of `emailToNewestIndex`. -/
def dedupKeptIndex (accounts : List AccountMetadata) (i : Nat) : Bool :=
  match accounts[i]? with
  | none => false
  | some acc =>
    (emailKey acc).isNone ||
      (accounts.filterMap emailKey).any (fun e => dedupBestIndex accounts e == some i)

/-- Index-aware filter: the second pass of `deduplicateAccountsByEmail`
pushing the records whose index was kept, in original order. -/
def keepFilter {α : Type} (p : Nat → α → Bool) : List α → Nat → List α
  | [], _ => []
  | a :: l, i => if p i a then a :: keepFilter p l (i + 1) else keepFilter p l (i + 1)

/-- `deduplicateAccountsByEmail` (src/plugin/storage.ts lines 379-439). -/
def deduplicateAccountsByEmail (accounts : List AccountMetadata) : List AccountMetadata :=
  keepFilter (fun i _ => dedupKeptIndex accounts i) accounts 0

/-- Parsed refresh credential.  Modelled from the spec: `parseRefreshParts`
lives in src/plugin/auth.ts, which is not among the provided sources; per
§6 the stored credential yields a refresh token plus optional project
ids, so the merge logic below is stated for an arbitrary parser producing
this record. -/
structure RefreshParts where
  refreshToken : String := ""
  projectId : Option String := none
  managedProjectId : Option String := none
  deriving DecidableEq

/-- Successful OAuth exchange result (`AntigravityTokenExchangeResult`
success payload), restricted to the fields `persistAccountPool` reads. -/
structure ExchangeSuccess where
  email : Option String := none
  refresh : String := ""
  deriving DecidableEq

/-- Persisted pool (`AccountStorage` of src/plugin/storage.ts lines
337-348). -/
structure AccountStorage where
  version : Nat := 1
  accounts : List AccountMetadata := []
  activeIndex : Int := 0
  deriving DecidableEq

/-- `clampInt` (src/plugin.ts lines 106-111) on finite values. -/
def clampInt (value lo hi : Int) : Int :=
  min hi (max lo value)

/-- `indexByRefreshToken` built over the loaded accounts
(src/plugin.ts lines 128-138). -/
def buildTokenIndex (accounts : List AccountMetadata) : String → Option Nat :=
  accounts.enum.foldl
    (fun m p =>
      if p.2.refreshToken ≠ "" then
        fun x => if x = p.2.refreshToken then some p.1 else m x
      else m)
    (fun _ => none)

/-- `indexByEmail` built over the loaded accounts
(src/plugin.ts lines 128-138). -/
def buildEmailIndex (accounts : List AccountMetadata) : String → Option Nat :=
  accounts.enum.foldl
    (fun m p =>
      match emailKey p.2 with
      | some e => fun x => if x = e then some p.1 else m x
      | none => m)
    (fun _ => none)

/-- The record appended for a new account
(src/plugin.ts lines 161-170). -/
def freshAccountRecord (parse : String → RefreshParts) (result : ExchangeSuccess)
    (now : Nat) : AccountMetadata :=
  { email := result.email,
    refreshToken := (parse result.refresh).refreshToken,
    projectId := (parse result.refresh).projectId,
    managedProjectId := (parse result.refresh).managedProjectId,
    addedAt := now,
    lastUsed := now,
    isRateLimited := some false,
    rateLimitResetTime := some 0 }

/-- One iteration of the merge loop of `persistAccountPool`
(src/plugin.ts lines 140-199): skip empty refresh tokens, match by email
first then by refresh token, append when unmatched, otherwise overwrite
token / project fields, reset the rate-limit flags and bump `lastUsed`;
the two indices are updated alongside. -/
def persistMergeOne (parse : String → RefreshParts) (now : Nat)
    (st : List AccountMetadata × (String → Option Nat) × (String → Option Nat))
    (result : ExchangeSuccess) :
    List AccountMetadata × (String → Option Nat) × (String → Option Nat) :=
  let accounts := st.1
  let indexByRefreshToken := st.2.1
  let indexByEmail := st.2.2
  let parts := parse result.refresh
  if parts.refreshToken = "" then st
  else
    let existingByEmail :=
      if strTruthy result.email then indexByEmail (result.email.getD "") else none
    let existingByToken := indexByRefreshToken parts.refreshToken
    match existingByEmail <|> existingByToken with
    | none =>
      let newIndex := accounts.length
      (accounts ++ [freshAccountRecord parse result now],
       fun x => if x = parts.refreshToken then some newIndex else indexByRefreshToken x,
       if strTruthy result.email then
         fun x => if x = result.email.getD "" then some newIndex else indexByEmail x
       else indexByEmail)
    | some existingIndex =>
      match accounts[existingIndex]? with
      | none => st
      | some existing =>
        let updated : AccountMetadata :=
          { existing with
            email := result.email <|> existing.email,
            refreshToken := parts.refreshToken,
            projectId := parts.projectId <|> existing.projectId,
            managedProjectId := parts.managedProjectId <|> existing.managedProjectId,
            lastUsed := now,
            isRateLimited := some false,
            rateLimitResetTime := some 0 }
        (accounts.set existingIndex updated,
         if existing.refreshToken ≠ parts.refreshToken then
           fun x =>
             if x = parts.refreshToken then some existingIndex
             else if x = existing.refreshToken then none
             else indexByRefreshToken x
         else indexByRefreshToken,
         indexByEmail)

/-- `persistAccountPool` (src/plugin.ts lines 113-215) as a pure state
transformer: `stored` is what `loadAccounts` returns, the result is what
`saveAccounts` receives (`none` when nothing is saved).  `parse` models
`parseRefreshParts` (see `RefreshParts`). -/
def persistAccountPool (parse : String → RefreshParts)
    (results : List ExchangeSuccess) (replaceAll : Bool)
    (stored : Option AccountStorage) (now : Nat) : Option AccountStorage :=
  if results.isEmpty then none
  else
    let loaded := if replaceAll then none else stored
    let accounts0 := (loaded.map (·.accounts)).getD []
    let merged := results.foldl (persistMergeOne parse now)
      (accounts0, buildTokenIndex accounts0, buildEmailIndex accounts0)
    let accounts := merged.1
    if accounts.isEmpty then none
    else
      let activeIndex : Int :=
        if replaceAll then 0 else (loaded.map (·.activeIndex)).getD 0
      some { version := 1, accounts := accounts,
             activeIndex := clampInt activeIndex 0 ((accounts.length : Int) - 1) }

/-- Error detail entry of a Google RPC error payload
(src/plugin/request.ts lines 1515-1521): its `@type` tag and optional
`retryDelay` string. -/
structure ErrDetail where
  atType : String := ""
  retryDelay : Option String := none
  deriving DecidableEq

/-- The `error` member of a parsed error body. -/
structure ErrObj where
  message : Option String := none
  details : Option (List ErrDetail) := none
  deriving DecidableEq

/-- Parsed non-OK JSON error body (`errorBody` of
src/plugin/request.ts lines 1495-1500). -/
structure ErrBody where
  error : Option ErrObj := none
  deriving DecidableEq

/-- Value of `Number.parseFloat` restricted to strings of digits and dots
(the only shape the retry-delay regex lets through), as an exact
numerator / denominator pair with the denominator a power of ten:
`none` models `NaN`.  Decimal strings this short are exact in IEEE
double arithmetic up to the rounding the `Math.ceil` below absorbs. -/
def parseDecimal (s : String) : Option (Nat × Nat) :=
  let cs := s.toList
  let intPart := cs.takeWhile Char.isDigit
  let rest := cs.drop intPart.length
  match rest with
  | '.' :: rest2 =>
    let fracPart := rest2.takeWhile Char.isDigit
    if intPart.isEmpty && fracPart.isEmpty then none
    else some (digitsVal intPart * 10 ^ fracPart.length + digitsVal fracPart,
      10 ^ fracPart.length)
  | _ => if intPart.isEmpty then none else some (digitsVal intPart, 1)

/-- `Math.ceil` of the fraction `n / d` for positive `d`. -/
def ceilDiv (n d : Nat) : Nat := (n + d - 1) / d

/-- The `^([\d.]+)s$` match of src/plugin/request.ts line 1521: the body
before the trailing `s`, when it is a non-empty run of digits and dots. -/
def retryDelayMatch (delay : String) : Option String :=
  let cs := delay.toList
  match cs.getLast? with
  | some 's' =>
    let body := cs.dropLast
    if !body.isEmpty && body.all (fun c => c.isDigit || c == '.') then
      some (String.mk body)
    else none
  | _ => none

/-- Header list update: replace the first entry with the given name, else
append (the effect of `Headers.set` for our purposes). -/
def setHeader : List (String × String) → String → String → List (String × String)
  | [], k, v => [(k, v)]
  | (k0, v0) :: rest, k, v =>
    if k0 = k then (k0, v) :: rest else (k0, v0) :: setHeader rest k v

/-- Header lookup by exact name. -/
def getHeader (headers : List (String × String)) (k : String) : Option String :=
  (headers.find? (fun h => h.1 = k)).map (·.2)

/-- RetryInfo block of `transformAntigravityResponse`
(src/plugin/request.ts lines 1515-1532): on a structured retry delay
`"<n>s"` in the error details, set `Retry-After` to the delay rounded up
to seconds and `retry-after-ms` to the delay rounded up to
milliseconds. -/
def retryInfoHeaders (headers : List (String × String)) (err : Option ErrObj) :
    List (String × String) :=
  match err with
  | some e =>
    match e.details with
    | some details =>
      match details.find?
          (fun d => d.atType = "type.googleapis.com/google.rpc.RetryInfo") with
      | some retryInfo =>
        match retryInfo.retryDelay with
        | some delay =>
          match (retryDelayMatch delay).bind parseDecimal with
          | some retrySeconds =>
            if 0 < retrySeconds.1 then
              setHeader
                (setHeader headers "Retry-After"
                  (toString (ceilDiv retrySeconds.1 retrySeconds.2)))
                "retry-after-ms" (toString (ceilDiv (retrySeconds.1 * 1000) retrySeconds.2))
            else headers
          | none => headers
        | none => headers
      | none => headers
    | none => headers
  | none => headers

/-- Buffered non-OK error handling of `transformAntigravityResponse`
(src/plugin/request.ts lines 1494-1533): when the parsed body has an
`error` member, debug info is appended to its message and the response is
returned at once (the `Bool` marks this early return); only otherwise is
the RetryInfo block reached, whose own guard needs that same `error`
member. -/
def handleNonOkErrorBody (headers : List (String × String)) (errorBody : ErrBody) :
    List (String × String) × Bool :=
  match errorBody.error with
  | some _ => (headers, true)
  | none => (retryInfoHeaders headers errorBody.error, false)

/-- Whether `normalizeGeminiTools` converts the tool into declarations, as
opposed to passing it through untouched (the complement of the
passthrough branch of src/transform/gemini.ts line 822). -/
def geminiHandledTool (t : ToolObj) : Bool :=
  !(t.functionDeclarations.getD []).isEmpty || geminiFallbackCond t

/-- Invariant of the first pass of `deduplicateAccountsByEmail` after the
records with index below `bound` have been processed: the map sends each
email to the index of an in-range record carrying that email which no
processed record with the same email strictly beats, and is `none` for
emails no processed record carries. -/
def DedupInv (accounts : List AccountMetadata) (bound : Nat)
    (m : String → Option Nat) : Prop :=
  ∀ e : String,
    (∀ j, m e = some j → j < bound ∧ ∃ a, accounts[j]? = some a ∧ emailKey a = some e ∧
      ∀ k b, k < bound → accounts[k]? = some b → emailKey b = some e →
        accIsNewer b a = false) ∧
    (m e = none → ∀ k b, k < bound → accounts[k]? = some b → emailKey b ≠ some e)

/-- Conversation whose pending tool call was issued without thinking while
an earlier model message consists solely of a thinking part: the
concrete input of the C8 analysis. -/
def c8CorruptedContents : List Content :=
  [ { role := "user", parts := some [{ text := some "hi" }] },
    { role := "model", parts := some [{ thought := true, text := some "old thinking" }] },
    { role := "user", parts := some [{ text := some "go" }] },
    { role := "model",
      parts := some [{ functionCall := some { name := some "f", id := some "call-1" } }] },
    { role := "user",
      parts := some [{ functionResponse := some { name := some "f", id := some "call-1" } }] } ]

/-- Non-OK error body carrying a structured RetryInfo delay of "3.5s":
the concrete input of the C9 analysis. -/
def c9RetryErrBody : ErrBody :=
  { error := some
      { message := some "Resource exhausted",
        details := some
          [{ atType := "type.googleapis.com/google.rpc.RetryInfo",
             retryDelay := some "3.5s" }] } }

/-- Gemini-style contents with two calls to the same declaration name and
two id-less responses to it: the concrete input of the C7 witness. -/
def c7RepeatedCallContents : List Content :=
  [ { role := "model",
      parts := some [{ functionCall := some { name := some "f" } },
                     { functionCall := some { name := some "f" } }] },
    { role := "user",
      parts := some [{ functionResponse := some { name := some "f" } },
                     { functionResponse := some { name := some "f" } }] } ]

/-- Ids of the functionCall parts with declaration name `n` in a flat
parts list, in order (see `callIdsNamed`). -/
def callIdsNamedParts (n : String) (parts : List GPart) : List String :=
  parts.filterMap
    (fun p =>
      match p.functionCall with
      | some call => if call.name = some n then some (call.id.getD "") else none
      | none => none)

theorem strTruthy_some_iff (s : String) : strTruthy (some s) = true ↔ s ≠ "" := by
  simp [strTruthy]

theorem orElse_self {α : Type} (o : Option α) : (o <|> o) = o := by
  cases o <;> rfl

/-- C5: for the Claude (signed-thinking) family, whenever the conversation
already contains assistant/model turns the resolved thinking
configuration forces thinking off (budget 0, thoughts excluded) for
every caller-supplied config — the source forces it off unconditionally,
so in particular whenever no repair happened — and for a
thinking-capable model with no explicit caller config, when the Claude
force-off case does not apply, thinking defaults to enabled with the
fixed 16000-token budget. -/
theorem c5_thinking_config_resolution (userConfig : Option ThinkingConfig)
    (isThinkingModel : Bool) (contents : List Content)
    (h : hasAssistantHistory contents = true) :
    resolveThinkingConfig userConfig isThinkingModel true (hasAssistantHistory contents) =
      some { includeThoughts := some false, thinkingBudget := some 0 } ∧
    (∀ (isClaudeModel hasHistory : Bool) (modelName : String),
      (isClaudeModel && hasHistory) = false →
      isThinkingCapableModel modelName = true →
      resolveThinkingConfig none (isThinkingCapableModel modelName) isClaudeModel hasHistory =
        some { includeThoughts := some true,
               thinkingBudget := some DEFAULT_THINKING_BUDGET }) := by
  constructor
  · simp [resolveThinkingConfig, h]
  · intro isClaudeModel hasHistory modelName hcl hcap
    simp [resolveThinkingConfig, hcl, hcap]

theorem c5_thinking_config_resolution_witness :
    hasAssistantHistory [{ role := "model" : Content }] = true ∧
    (resolveThinkingConfig none true true
        (hasAssistantHistory [{ role := "model" : Content }]) =
      some { includeThoughts := some false, thinkingBudget := some 0 } ∧
    (∀ (isClaudeModel hasHistory : Bool) (modelName : String),
      (isClaudeModel && hasHistory) = false →
      isThinkingCapableModel modelName = true →
      resolveThinkingConfig none (isThinkingCapableModel modelName) isClaudeModel hasHistory =
        some { includeThoughts := some true,
               thinkingBudget := some DEFAULT_THINKING_BUDGET })) :=
  ⟨by decide, c5_thinking_config_resolution none true [{ role := "model" }] (by decide)⟩

/-- C9: contrary to the claim, the buffered non-OK error path never emits
the retry headers: the early return that appends debug info fires for
every body with an `error` member, and the RetryInfo block sitting after
it is guarded by that same member, so it is unreachable — the headers
pass through unchanged for every error body.  The last two conjuncts
evaluate the code at the failing input (a RetryInfo delay of "3.5s"):
no headers are produced, although the dead block by itself would have
produced `Retry-After: 4` and `retry-after-ms: 3500`. -/
theorem c9_retry_headers_never_emitted :
    (∀ (headers : List (String × String)) (errorBody : ErrBody),
      getHeader (handleNonOkErrorBody headers errorBody).1 "retry-after-ms" =
        getHeader headers "retry-after-ms" ∧
      getHeader (handleNonOkErrorBody headers errorBody).1 "Retry-After" =
        getHeader headers "Retry-After") ∧
    (handleNonOkErrorBody [] c9RetryErrBody).1 = [] ∧
    retryInfoHeaders [] c9RetryErrBody.error =
      [("Retry-After", "4"), ("retry-after-ms", "3500")] := by
  refine ⟨fun headers errorBody => ?_, by decide, by decide⟩
  cases h : errorBody.error <;> simp [handleNonOkErrorBody, h, retryInfoHeaders]

theorem retryAfterMs_characterization (msHeader sHeader : Option String) :
    retryAfterMsFromResponse msHeader sHeader =
      (match retryHintPos msHeader, retryHintPos sHeader with
       | some p, _ => p
       | none, some q => q * 1000
       | none, none => 60000) := by
  have seconds : retryAfterSecondsMs sHeader =
      (match retryHintPos sHeader with
       | some q => q * 1000
       | none => 60000) := by
    cases h2 : strTruthy sHeader
    · simp [retryAfterSecondsMs, retryHintPos, h2]
    · cases h3 : parseIntJS (sHeader.getD "") with
      | none => simp [retryAfterSecondsMs, retryHintPos, h2, h3]
      | some v =>
        by_cases h4 : 0 < v <;>
          simp [retryAfterSecondsMs, retryHintPos, h2, h3, h4]
  have msSome : ∀ p, retryHintPos msHeader = some p →
      retryAfterMsFromResponse msHeader sHeader = p := by
    intro p hm
    cases h1 : strTruthy msHeader
    · simp [retryHintPos, h1] at hm
    · cases h3 : parseIntJS (msHeader.getD "") with
      | none => simp [retryHintPos, h1, h3] at hm
      | some v =>
        by_cases h4 : 0 < v
        · simp [retryHintPos, h1, h3, h4] at hm
          simp [retryAfterMsFromResponse, h1, h3, h4, hm]
        · simp [retryHintPos, h1, h3, h4] at hm
  have msNone : retryHintPos msHeader = none →
      retryAfterMsFromResponse msHeader sHeader = retryAfterSecondsMs sHeader := by
    intro hm
    cases h1 : strTruthy msHeader
    · simp [retryAfterMsFromResponse, h1]
    · cases h3 : parseIntJS (msHeader.getD "") with
      | none => simp [retryAfterMsFromResponse, h1, h3]
      | some v =>
        by_cases h4 : 0 < v
        · simp [retryHintPos, h1, h3, h4] at hm
        · simp [retryAfterMsFromResponse, h1, h3, h4]
  cases hm : retryHintPos msHeader with
  | some p => simp [msSome p hm]
  | none =>
    rw [msNone hm, seconds]
    cases hs : retryHintPos sHeader <;> simp

/-- C1: a 429 response at the current endpoint exits the loop by marking
the account rate-limited with exactly `retryAfterMsFromResponse` of the
response's headers, and that cooldown follows the claimed preference
order: the positive integer the `retry-after-ms` header parses to, else
the positive integer the `retry-after` header parses to times 1000, else
the 60000 ms default. -/
theorem c1_rate_limit_cooldown :
    (∀ (f : Nat → Attempt) (accountCount i remaining : Nat)
      (lastFailure : Option (Nat × Nat)) (msHeader sHeader : Option String),
      f i = Attempt.responds 429 msHeader sHeader →
      tryEndpointsFrom f accountCount i (remaining + 1) lastFailure =
        LoopResult.rateLimitedSwitch i (retryAfterMsFromResponse msHeader sHeader)
          (decide (accountCount ≤ 1))) ∧
    (∀ msHeader sHeader : Option String,
      retryAfterMsFromResponse msHeader sHeader =
        (match retryHintPos msHeader, retryHintPos sHeader with
         | some p, _ => p
         | none, some q => q * 1000
         | none, none => 60000)) := by
  refine ⟨?_, retryAfterMs_characterization⟩
  intro f accountCount i remaining lastFailure msHeader sHeader h
  simp [tryEndpointsFrom, h]

theorem c1_rate_limit_cooldown_witness :
    (fun _ : Nat => Attempt.responds 429 (some "1500") (some "2")) 0 =
      Attempt.responds 429 (some "1500") (some "2") ∧
    tryEndpointsFrom (fun _ => Attempt.responds 429 (some "1500") (some "2")) 2 0 1 none =
      LoopResult.rateLimitedSwitch 0 1500 false := by
  refine ⟨rfl, ?_⟩
  have h := c1_rate_limit_cooldown.1 (fun _ => Attempt.responds 429 (some "1500") (some "2"))
    2 0 0 none (some "1500") (some "2") rfl
  have e1 : retryAfterMsFromResponse (some "1500") (some "2") = 1500 := by decide
  have e2 : decide (2 ≤ 1) = false := by decide
  rw [h, e1, e2]

/-- C2: a 403, 404 or 5xx status at an endpoint that is not the last
records the failure and advances the loop to the next endpoint, and in
particular with three endpoints a 500 from the first followed by a 200
from the second returns the second endpoint's translated response for
every behaviour of the third endpoint — so the third is never called. -/
theorem c2_endpoint_fallback :
    (∀ (f : Nat → Attempt) (accountCount i remaining : Nat)
      (lastFailure : Option (Nat × Nat)) (status : Nat) (msHeader sHeader : Option String),
      f i = Attempt.responds status msHeader sHeader →
      shouldRetryEndpoint status = true →
      tryEndpointsFrom f accountCount i (remaining + 2) lastFailure =
        tryEndpointsFrom f accountCount (i + 1) (remaining + 1) (some (i, status))) ∧
    (∀ (f : Nat → Attempt) (accountCount : Nat) (ms0 s0 ms1 s1 : Option String),
      f 0 = Attempt.responds 500 ms0 s0 →
      f 1 = Attempt.responds 200 ms1 s1 →
      tryEndpoints f accountCount 3 = LoopResult.returned 1 200) := by
  constructor
  · intro f accountCount i remaining lastFailure status msHeader sHeader h hr
    have h429 : status ≠ 429 := by
      simp only [shouldRetryEndpoint, Bool.or_eq_true, beq_iff_eq,
        decide_eq_true_eq] at hr
      omega
    simp [tryEndpointsFrom, h, h429, hr]
  · intro f accountCount ms0 s0 ms1 s1 h0 h1
    have s500 : shouldRetryEndpoint 500 = true := by decide
    have s200 : shouldRetryEndpoint 200 = false := by decide
    simp [tryEndpoints, tryEndpointsFrom, h0, h1, s500, s200]

theorem c2_endpoint_fallback_witness :
    (fun i : Nat => if i = 0 then Attempt.responds 500 none none
      else if i = 1 then Attempt.responds 200 none none else Attempt.throws) 0 =
        Attempt.responds 500 none none ∧
    (fun i : Nat => if i = 0 then Attempt.responds 500 none none
      else if i = 1 then Attempt.responds 200 none none else Attempt.throws) 1 =
        Attempt.responds 200 none none ∧
    tryEndpoints (fun i => if i = 0 then Attempt.responds 500 none none
      else if i = 1 then Attempt.responds 200 none none else Attempt.throws) 2 3 =
      LoopResult.returned 1 200 :=
  ⟨by decide, by decide,
    c2_endpoint_fallback.2
      (fun i => if i = 0 then Attempt.responds 500 none none
        else if i = 1 then Attempt.responds 200 none none else Attempt.throws)
      2 none none none none (by decide) (by decide)⟩

theorem stripMsgThinking_free_or_eq (m : Content) :
    messageHasThinking (stripMsgThinking m) = false ∨ stripMsgThinking m = m := by
  unfold stripMsgThinking
  cases hp : m.parts with
  | some parts =>
    by_cases hkeep :
        ((parts.filter (fun part => !isThinkingPart part)).isEmpty && !parts.isEmpty) = true
    · right; simp [hkeep]
    · left
      simp only [hkeep, if_false, Bool.false_eq_true]
      simp only [messageHasThinking]
      rw [List.any_eq_false]
      intro x hx
      have := List.of_mem_filter hx
      simpa using this
  | none =>
    cases hc : m.content with
    | some blocks =>
      by_cases hkeep :
          ((blocks.filter (fun b => !isThinkingBlock b)).isEmpty && !blocks.isEmpty) = true
      · right; simp [hkeep]
      · left
        simp only [hkeep, if_false, Bool.false_eq_true]
        simp only [messageHasThinking, hp]
        rw [List.any_eq_false]
        intro x hx
        have := List.of_mem_filter hx
        simpa using this
    | none => right; rfl

/-- C8 counterexample: on a conversation ending in a tool result whose
turn had no thinking, recovery triggers, yet an earlier model message
consisting solely of a thinking part survives `stripAllThinkingBlocks`
unchanged (the source keeps a message whose parts would all be filtered
away), so the recovered conversation still contains a thinking block —
refuting "all prior thinking blocks removed". -/
theorem c8_thinking_survives_recovery :
    needsThinkingRecovery (analyzeConversationState c8CorruptedContents) = true ∧
    ((thinkingRecoveryStep c8CorruptedContents (fun _ => none) "session").1.any
      messageHasThinking) = true := by
  constructor <;> decide

/-- C8 (amended): when the recovery trigger fires (conversation in a tool
loop whose turn start had no thinking), the request contents become the
thinking-stripped history followed by a synthetic model message (whose
text reports the trailing tool-result count) and the synthetic user
"[Continue]" message — so the conversation ends in a synthetic user turn
— and the cached last-signed-thinking entry for the session key is
invalidated; stripping removes every thinking block except that a
message consisting entirely of thinking parts is kept unchanged. -/
theorem c8_recovery_closes_turn (contents : List Content)
    (cache : String → Option SignedThinking) (key : String)
    (h : needsThinkingRecovery (analyzeConversationState contents) = true) :
    (thinkingRecoveryStep contents cache key).1 =
      stripAllThinkingBlocks contents ++
        [syntheticModelMsg (syntheticModelText
          (countTrailingToolResults (stripAllThinkingBlocks contents))),
         syntheticUserMsg] ∧
    (thinkingRecoveryStep contents cache key).1.getLast? = some syntheticUserMsg ∧
    (thinkingRecoveryStep contents cache key).2 key = none ∧
    (∀ m ∈ contents,
      messageHasThinking (stripMsgThinking m) = false ∨ stripMsgThinking m = m) := by
  refine ⟨?_, ?_, ?_, fun m _ => stripMsgThinking_free_or_eq m⟩
  · simp [thinkingRecoveryStep, h, closeToolLoopForThinking]
  · have e : (thinkingRecoveryStep contents cache key).1 =
        stripAllThinkingBlocks contents ++
          [syntheticModelMsg (syntheticModelText
            (countTrailingToolResults (stripAllThinkingBlocks contents))),
           syntheticUserMsg] := by
      simp [thinkingRecoveryStep, h, closeToolLoopForThinking]
    rw [e, List.getLast?_append]
    · rfl
  · simp [thinkingRecoveryStep, h]

theorem c8_recovery_closes_turn_witness :
    needsThinkingRecovery (analyzeConversationState c8CorruptedContents) = true ∧
    ((thinkingRecoveryStep c8CorruptedContents (fun _ => none) "session-key").1 =
      stripAllThinkingBlocks c8CorruptedContents ++
        [syntheticModelMsg (syntheticModelText
          (countTrailingToolResults (stripAllThinkingBlocks c8CorruptedContents))),
         syntheticUserMsg] ∧
    (thinkingRecoveryStep c8CorruptedContents (fun _ => none) "session-key").1.getLast? =
      some syntheticUserMsg ∧
    (thinkingRecoveryStep c8CorruptedContents (fun _ => none) "session-key").2
      "session-key" = none ∧
    (∀ m ∈ c8CorruptedContents,
      messageHasThinking (stripMsgThinking m) = false ∨ stripMsgThinking m = m)) :=
  ⟨by decide,
    c8_recovery_closes_turn c8CorruptedContents (fun _ => none) "session-key" (by decide)⟩

theorem normalizeGeminiSchema_snd (s : Option SchemaJson) :
    (normalizeGeminiSchema s).2 = if schemaUnusable s then 1 else 0 := by
  match s with
  | none => rfl
  | some .nonObject => rfl
  | some (.obj a b c d) =>
    simp only [normalizeGeminiSchema, schemaUnusable, if_false, Bool.false_eq_true]
    split <;> rfl

theorem pushGeminiDeclaration_effects (t : ToolObj) (d : Option ToolDecl)
    (src : String) (acc : GeminiToolsAcc) :
    (pushGeminiDeclaration t d src acc).missing =
      acc.missing + (if schemaUnusable (resolveDeclSchema t d) then 1 else 0) ∧
    (pushGeminiDeclaration t d src acc).summaries.length = acc.summaries.length + 1 ∧
    (pushGeminiDeclaration t d src acc).passthroughTools = acc.passthroughTools := by
  refine ⟨?_, ?_, rfl⟩
  · simp [pushGeminiDeclaration, normalizeGeminiSchema_snd]
  · simp [pushGeminiDeclaration]

theorem pushGeminiFold_effects (t : ToolObj) (ds : List ToolDecl) :
    ∀ acc : GeminiToolsAcc,
    (ds.foldl (fun a d => pushGeminiDeclaration t (some d) "functionDeclarations" a)
        acc).missing =
      acc.missing +
        (ds.filter (fun d => schemaUnusable (resolveDeclSchema t (some d)))).length ∧
    (ds.foldl (fun a d => pushGeminiDeclaration t (some d) "functionDeclarations" a)
        acc).summaries.length = acc.summaries.length + ds.length ∧
    (ds.foldl (fun a d => pushGeminiDeclaration t (some d) "functionDeclarations" a)
        acc).passthroughTools = acc.passthroughTools := by
  induction ds with
  | nil => intro acc; simp
  | cons d ds ih =>
    intro acc
    obtain ⟨ih1, ih2, ih3⟩ :=
      ih (pushGeminiDeclaration t (some d) "functionDeclarations" acc)
    obtain ⟨p1, p2, p3⟩ :=
      pushGeminiDeclaration_effects t (some d) "functionDeclarations" acc
    refine ⟨?_, ?_, ?_⟩
    · rw [List.foldl_cons, ih1, p1, List.filter_cons]
      by_cases hu : schemaUnusable (resolveDeclSchema t (some d)) = true
      · simp only [hu, if_pos, List.length_cons]
        omega
      · simp only [hu, Bool.false_eq_true, if_false]
        omega
    · rw [List.foldl_cons, ih2, p2]; simp only [List.length_cons]; omega
    · rw [List.foldl_cons, ih3, p3]

theorem normalizeGeminiTool_effects (t : ToolObj) (acc : GeminiToolsAcc) :
    (normalizeGeminiTool t acc).missing = acc.missing + toolMissingCount t ∧
    (normalizeGeminiTool t acc).summaries.length =
      acc.summaries.length + toolDeclCount t ∧
    (normalizeGeminiTool t acc).passthroughTools =
      acc.passthroughTools ++ (if geminiHandledTool t then [] else [t]) := by
  unfold normalizeGeminiTool toolMissingCount toolDeclCount geminiHandledTool
  cases hfd : t.functionDeclarations with
  | some decls =>
    by_cases hde : decls.isEmpty = true
    · have : decls = [] := by simpa using hde
      subst this
      by_cases hfb : geminiFallbackCond t = true
      · obtain ⟨p1, p2, p3⟩ := pushGeminiDeclaration_effects t
          (some (t.function.getD (t.custom.getD (toolAsDecl t)))) "function/custom" acc
        simp [hfb, p1, p2, p3]
      · simp only [hfb, Bool.false_eq_true, if_false]
        simp
    · by_cases hfb : geminiFallbackCond t = true
      · obtain ⟨f1, f2, f3⟩ := pushGeminiFold_effects t decls acc
        simp [hde, hfb, f1, f2, f3]
      · obtain ⟨f1, f2, f3⟩ := pushGeminiFold_effects t decls acc
        simp [hde, hfb, f1, f2, f3]
  | none =>
    by_cases hfb : geminiFallbackCond t = true
    · obtain ⟨p1, p2, p3⟩ := pushGeminiDeclaration_effects t
        (some (t.function.getD (t.custom.getD (toolAsDecl t)))) "function/custom" acc
      simp [hfb, p1, p2, p3]
    · simp [hfb]

theorem normalizeGeminiTools_acc (tools : List ToolObj) :
    ∀ acc : GeminiToolsAcc,
    (tools.foldl (fun a t => normalizeGeminiTool t a) acc).missing =
      acc.missing + (tools.map toolMissingCount).sum ∧
    (tools.foldl (fun a t => normalizeGeminiTool t a) acc).summaries.length =
      acc.summaries.length + (tools.map toolDeclCount).sum ∧
    (tools.foldl (fun a t => normalizeGeminiTool t a) acc).passthroughTools =
      acc.passthroughTools ++ tools.filter (fun t => !geminiHandledTool t) := by
  induction tools with
  | nil => intro acc; simp
  | cons t ts ih =>
    intro acc
    obtain ⟨ih1, ih2, ih3⟩ := ih (normalizeGeminiTool t acc)
    obtain ⟨s1, s2, s3⟩ := normalizeGeminiTool_effects t acc
    refine ⟨?_, ?_, ?_⟩
    · rw [List.foldl_cons, ih1, s1]; simp; omega
    · rw [List.foldl_cons, ih2, s2]; simp; omega
    · rw [List.foldl_cons, ih3, s3]
      by_cases hh : geminiHandledTool t = true <;>
        simp [hh, List.filter_cons]

/-- C6 counterexample: for a declaration with no usable schema on the
Claude tool path, the substituted placeholder's single required field
`reason` has type "string", not "boolean" — refuting the claim that the
placeholder always consists of exactly one required boolean field. -/
theorem c6_claude_placeholder_counterexample :
    claudeNormalizeSchema id none =
      (SchemaJson.obj none (some "object") (some claudePlaceholderProps)
        (some ["reason"]), 1) ∧
    claudePlaceholderProps.map (fun p => p.2.type) = ["string"] ∧
    ("string" : String) ≠ "boolean" := by
  refine ⟨rfl, rfl, by decide⟩

/-- C6 (amended): on the Gemini tool path every declaration with no usable
schema gets the `_placeholder` schema with exactly one required boolean
field, while the Claude tool path substitutes one required string field
(`reason`); the returned `toolDebugMissing` counts exactly the
unusable-schema declarations, one diagnostic summary line is returned
per declaration, and non-function tool entries pass through unchanged
(in order). -/
theorem c6_tool_placeholder_metadata (tools : List ToolObj) :
    (normalizeGeminiTools tools).2.1 = (tools.map toolMissingCount).sum ∧
    (normalizeGeminiTools tools).2.2.length = (tools.map toolDeclCount).sum ∧
    normalizeGeminiSchema none = (geminiPlaceholderSchema, 1) ∧
    normalizeGeminiSchema (some .nonObject) = (geminiPlaceholderSchema, 1) ∧
    geminiPlaceholderSchema = SchemaJson.obj none (some "object")
      (some [("_placeholder",
        { type := "boolean", description := "Placeholder. Always pass true." })])
      (some ["_placeholder"]) ∧
    (∀ clean : SchemaJson → SchemaJson, claudeNormalizeSchema clean none =
      (SchemaJson.obj none (some "object") (some claudePlaceholderProps)
        (some ["reason"]), 1)) ∧
    (normalizeGeminiTools tools).1.filterMap
        (fun o => match o with | OutTool.passthrough t => some t | _ => none) =
      tools.filter (fun t => !geminiHandledTool t) := by
  obtain ⟨a1, a2, a3⟩ := normalizeGeminiTools_acc tools {}
  refine ⟨?_, ?_, rfl, rfl, rfl, fun clean => rfl, ?_⟩
  · simpa [normalizeGeminiTools] using a1
  · simpa [normalizeGeminiTools] using a2
  · simp only [normalizeGeminiTools]
    rw [List.filterMap_append, List.filterMap_map]
    have h1 : ∀ l : List (String × String × SchemaJson),
        ((if !l.isEmpty then [OutTool.functionDeclarations l] else []).filterMap
          (fun o => match o with | OutTool.passthrough t => some t | _ => none)) =
        ([] : List ToolObj) := by
      intro l
      by_cases he : l.isEmpty = true <;> simp [he, List.filterMap]
    rw [h1]
    simp only [List.nil_append]
    have h2 : (fun t : ToolObj =>
        (match OutTool.passthrough t with
         | OutTool.passthrough t => some t | _ => none)) = fun t => some t := rfl
    rw [show ((fun o => match o with | OutTool.passthrough t => some t | _ => none) ∘
        OutTool.passthrough) = (fun t : ToolObj => some t) from rfl]
    have h3 : ∀ l : List ToolObj, l.filterMap (fun t => some t) = l := by
      intro l; induction l with
      | nil => rfl
      | cons x xs ih => simp [List.filterMap_cons, ih]
    rw [h3]
    simp [a3]

theorem callIdsNamed_eq (n : String) (contents : List Content) :
    callIdsNamed n contents =
      callIdsNamedParts n (contents.flatMap (fun c => c.parts.getD [])) := rfl

theorem callIdsNamedParts_append (n : String) (a b : List GPart) :
    callIdsNamedParts n (a ++ b) = callIdsNamedParts n a ++ callIdsNamedParts n b := by
  simp [callIdsNamedParts, List.filterMap_append]

theorem string_append_ne_empty (a b : String) (ha : a ≠ "") : a ++ b ≠ "" := by
  intro h
  have hl := congrArg String.length h
  rw [String.length_append] at hl
  apply ha
  have h0 : a.length = 0 := by
    have : ("" : String).length = 0 := rfl
    omega
  cases a with
  | mk data =>
    cases data with
    | nil => rfl
    | cons c cs => simp [String.length] at h0

theorem backfillCallPart_call_id (p : GPart) (st : BackfillState) :
    ∀ call, (backfillCallPart p st).1.functionCall = some call →
      strTruthy call.id = true := by
  intro call h
  cases hc : p.functionCall with
  | none => simp [backfillCallPart, hc] at h
  | some call0 =>
    simp only [backfillCallPart, hc] at h
    by_cases hid : strTruthy call0.id = true
    · simp only [hid, Bool.not_true] at h
      simp only [if_neg, Bool.false_eq_true, if_false, Option.some.injEq] at h
      obtain ⟨s, hs⟩ : ∃ s, call0.id = some s := by
        cases hd : call0.id with
        | none => rw [hd] at hid; simp [strTruthy] at hid
        | some s => exact ⟨s, rfl⟩
      rw [← h]
      simp only [hs, Option.getD_some]
      rw [hs] at hid
      simpa [strTruthy] using hid
    · simp only [hid] at h
      simp only [Bool.not_false, if_pos, Option.some.injEq] at h
      rw [← h]
      simp only [strTruthy, ne_eq, decide_eq_true_eq]
      exact string_append_ne_empty "tool-call-" _ (by decide)

theorem backfillCallParts_ids (parts : List GPart) :
    ∀ st, ∀ p ∈ (backfillCallParts parts st).1, ∀ call,
      p.functionCall = some call → strTruthy call.id = true := by
  induction parts with
  | nil => intro st p hp; simp [backfillCallParts] at hp
  | cons a l ih =>
    intro st p hp call hcall
    simp only [backfillCallParts, List.mem_cons] at hp
    rcases hp with h | h
    · subst h; exact backfillCallPart_call_id a st call hcall
    · exact ih (backfillCallPart a st).2 p h call hcall

theorem backfillCallContents_ids (contents : List Content) :
    ∀ st, ∀ c ∈ (backfillCallContents contents st).1, ∀ p ∈ c.parts.getD [], ∀ call,
      p.functionCall = some call → strTruthy call.id = true := by
  induction contents with
  | nil => intro st c hc; simp [backfillCallContents] at hc
  | cons a l ih =>
    intro st c hc p hp call hcall
    cases ha : a.parts with
    | some parts =>
      simp only [backfillCallContents, ha, List.mem_cons] at hc
      rcases hc with h | h
      · subst h
        simp only [Option.getD_some] at hp
        exact backfillCallParts_ids parts st p hp call hcall
      · exact ih _ c h p hp call hcall
    | none =>
      simp only [backfillCallContents, ha, List.mem_cons] at hc
      rcases hc with h | h
      · subst h; rw [ha] at hp; simp at hp
      · exact ih _ c h p hp call hcall

theorem backfillRespPart_functionCall (p : GPart) (q : String → List String) :
    (backfillRespPart p q).1.functionCall = p.functionCall := by
  cases hr : p.functionResponse with
  | none => simp [backfillRespPart, hr]
  | some resp =>
    by_cases hid : strTruthy resp.id = true
    · simp [backfillRespPart, hr, hid]
    · cases hn : resp.name with
      | none => simp [backfillRespPart, hr, hid, hn]
      | some n => cases hq : q n <;> simp [backfillRespPart, hr, hid, hn, hq]

theorem backfillRespParts_preserves_ids (parts : List GPart) :
    ∀ q, (∀ p ∈ parts, ∀ call, p.functionCall = some call → strTruthy call.id = true) →
      ∀ p ∈ (backfillRespParts parts q).1, ∀ call,
        p.functionCall = some call → strTruthy call.id = true := by
  induction parts with
  | nil => intro q _ p hp; simp [backfillRespParts] at hp
  | cons a l ih =>
    intro q hin p hp call hcall
    simp only [backfillRespParts, List.mem_cons] at hp
    rcases hp with h | h
    · subst h
      rw [backfillRespPart_functionCall] at hcall
      exact hin a (by simp) call hcall
    · exact ih (backfillRespPart a q).2
        (fun x hx => hin x (List.mem_cons_of_mem a hx)) p h call hcall

theorem backfillRespContents_preserves_ids (contents : List Content) :
    ∀ q, (∀ c ∈ contents, ∀ p ∈ c.parts.getD [], ∀ call,
        p.functionCall = some call → strTruthy call.id = true) →
      ∀ c ∈ (backfillRespContents contents q).1, ∀ p ∈ c.parts.getD [], ∀ call,
        p.functionCall = some call → strTruthy call.id = true := by
  induction contents with
  | nil => intro q _ c hc; simp [backfillRespContents] at hc
  | cons a l ih =>
    intro q hin c hc p hp call hcall
    cases ha : a.parts with
    | some parts =>
      simp only [backfillRespContents, ha, List.mem_cons] at hc
      rcases hc with h | h
      · subst h
        simp only [Option.getD_some] at hp
        refine backfillRespParts_preserves_ids parts q ?_ p hp call hcall
        intro x hx call2 hcall2
        exact hin a (by simp) x (by simp [ha, hx]) call2 hcall2
      · exact ih _ (fun x hx => hin x (List.mem_cons_of_mem a hx)) c h p hp call hcall
    | none =>
      simp only [backfillRespContents, ha, List.mem_cons] at hc
      rcases hc with h | h
      · subst h; rw [ha] at hp; simp at hp
      · exact ih _ (fun x hx => hin x (List.mem_cons_of_mem a hx)) c h p hp call hcall

theorem drop_nil_getElem {α : Type} (l : List α) (k : Nat) (h : l.drop k = []) :
    l[k]? = none := by
  have : (l.drop k)[0]? = l[k]? := by
    rw [List.getElem?_drop, Nat.add_zero]
  rw [h] at this
  simpa using this.symm

theorem drop_cons_getElem {α : Type} (l : List α) (k : Nat) (c : α) (rest : List α)
    (h : l.drop k = c :: rest) : l[k]? = some c ∧ l.drop (k + 1) = rest := by
  constructor
  · have : (l.drop k)[0]? = l[k]? := by
      rw [List.getElem?_drop, Nat.add_zero]
    rw [h] at this
    simpa using this.symm
  · have : l.drop (k + 1) = (l.drop k).drop 1 := by
      rw [List.drop_drop]
    rw [this, h]
    rfl

theorem backfillRespPart_fifo (Q0 : String → List String) (p : GPart)
    (q : String → List String) (cnt : String → Nat)
    (hrel : ∀ n, q n = (Q0 n).drop (cnt n)) :
    (backfillRespPart p q).1 = (fifoRespPart Q0 p cnt).1 ∧
    ∀ n, (backfillRespPart p q).2 n = (Q0 n).drop ((fifoRespPart Q0 p cnt).2 n) := by
  cases hr : p.functionResponse with
  | none => exact ⟨by simp [backfillRespPart, fifoRespPart, hr], by
      simp only [backfillRespPart, fifoRespPart, hr]; exact hrel⟩
  | some resp =>
    by_cases hid : strTruthy resp.id = true
    · exact ⟨by simp [backfillRespPart, fifoRespPart, hr, hid], by
        simp only [backfillRespPart, fifoRespPart, hr, hid, if_pos]; exact hrel⟩
    · cases hn : resp.name with
      | none => exact ⟨by simp [backfillRespPart, fifoRespPart, hr, hid, hn], by
          simp only [backfillRespPart, fifoRespPart, hr, hid, hn]
          simp only [Bool.false_eq_true, if_false]
          exact hrel⟩
      | some n =>
        cases hq : q n with
        | nil =>
          have hget : (Q0 n)[cnt n]? = none := by
            apply drop_nil_getElem
            rw [← hrel n, hq]
          refine ⟨by simp [backfillRespPart, fifoRespPart, hr, hid, hn, hq, hget], ?_⟩
          simp only [backfillRespPart, fifoRespPart, hr, hid, hn, hq, hget]
          simp only [Bool.false_eq_true, if_false]
          exact hrel
        | cons c rest =>
          obtain ⟨hget, hdrop⟩ := drop_cons_getElem (Q0 n) (cnt n) c rest
            (by rw [← hrel n, hq])
          refine ⟨by simp [backfillRespPart, fifoRespPart, hr, hid, hn, hq, hget], ?_⟩
          intro m
          simp only [backfillRespPart, fifoRespPart, hr, hid, hn, hq, hget]
          simp only [Bool.false_eq_true, if_false]
          by_cases hm : m = n
          · subst hm; simp [hdrop]
          · simp [hm, hrel m]

theorem backfillRespParts_fifo (Q0 : String → List String) (parts : List GPart) :
    ∀ (q : String → List String) (cnt : String → Nat),
    (∀ n, q n = (Q0 n).drop (cnt n)) →
    (backfillRespParts parts q).1 = (fifoRespParts Q0 parts cnt).1 ∧
    ∀ n, (backfillRespParts parts q).2 n =
      (Q0 n).drop ((fifoRespParts Q0 parts cnt).2 n) := by
  induction parts with
  | nil => intro q cnt hrel; exact ⟨rfl, hrel⟩
  | cons a l ih =>
    intro q cnt hrel
    obtain ⟨h1, h2⟩ := backfillRespPart_fifo Q0 a q cnt hrel
    obtain ⟨h3, h4⟩ := ih (backfillRespPart a q).2 (fifoRespPart Q0 a cnt).2 h2
    constructor
    · simp only [backfillRespParts, fifoRespParts, h1, h3]
    · simpa only [backfillRespParts, fifoRespParts] using h4

theorem backfillRespContents_fifo (Q0 : String → List String) (contents : List Content) :
    ∀ (q : String → List String) (cnt : String → Nat),
    (∀ n, q n = (Q0 n).drop (cnt n)) →
    (backfillRespContents contents q).1 = (fifoRespContents Q0 contents cnt).1 := by
  induction contents with
  | nil => intro q cnt _; rfl
  | cons a l ih =>
    intro q cnt hrel
    cases ha : a.parts with
    | some parts =>
      obtain ⟨h1, h2⟩ := backfillRespParts_fifo Q0 parts q cnt hrel
      simp only [backfillRespContents, fifoRespContents, ha, h1]
      rw [ih (backfillRespParts parts q).2 (fifoRespParts Q0 parts cnt).2 h2]
    | none =>
      simp only [backfillRespContents, fifoRespContents, ha]
      rw [ih q cnt hrel]

theorem backfillCallPart_queue (p : GPart) (st : BackfillState)
    (hnamed : ∀ call, p.functionCall = some call → call.name.isSome = true) :
    ∀ n, (backfillCallPart p st).2.pendingCallIdsByName n =
      st.pendingCallIdsByName n ++ callIdsNamedParts n [(backfillCallPart p st).1] := by
  intro n
  cases hc : p.functionCall with
  | none => simp [backfillCallPart, hc, callIdsNamedParts]
  | some call =>
    obtain ⟨nm, hnm⟩ : ∃ nm, call.name = some nm := by
      have := hnamed call hc
      cases hx : call.name with
      | none => rw [hx] at this; simp at this
      | some nm => exact ⟨nm, rfl⟩
    simp only [backfillCallPart, hc, hnm, callIdsNamedParts, List.filterMap]
    by_cases hm : n = nm
    · subst hm; simp
    · have hmn : ¬ nm = n := fun hh => hm hh.symm
      simp [hm, hmn]

theorem backfillCallParts_queue (parts : List GPart) :
    ∀ st : BackfillState,
    (∀ p ∈ parts, ∀ call, p.functionCall = some call → call.name.isSome = true) →
    ∀ n, (backfillCallParts parts st).2.pendingCallIdsByName n =
      st.pendingCallIdsByName n ++ callIdsNamedParts n (backfillCallParts parts st).1 := by
  induction parts with
  | nil => intro st _ n; simp [backfillCallParts, callIdsNamedParts]
  | cons a l ih =>
    intro st hnamed n
    have h1 := backfillCallPart_queue a st
      (fun call hc => hnamed a (by simp) call hc) n
    have h2 := ih (backfillCallPart a st).2
      (fun p hp call hc => hnamed p (List.mem_cons_of_mem a hp) call hc) n
    simp only [backfillCallParts]
    rw [h2, h1]
    have : (backfillCallPart a st).1 :: (backfillCallParts l (backfillCallPart a st).2).1 =
        [(backfillCallPart a st).1] ++ (backfillCallParts l (backfillCallPart a st).2).1 := rfl
    rw [this, callIdsNamedParts_append, List.append_assoc]

theorem backfillCallContents_queue (contents : List Content) :
    ∀ st : BackfillState,
    (∀ c ∈ contents, ∀ p ∈ c.parts.getD [], ∀ call,
      p.functionCall = some call → call.name.isSome = true) →
    ∀ n, (backfillCallContents contents st).2.pendingCallIdsByName n =
      st.pendingCallIdsByName n ++ callIdsNamed n (backfillCallContents contents st).1 := by
  induction contents with
  | nil => intro st _ n; simp [backfillCallContents, callIdsNamed, callIdsNamedParts]
  | cons a l ih =>
    intro st hnamed n
    cases ha : a.parts with
    | some parts =>
      have h1 := backfillCallParts_queue parts st
        (fun p hp call hc => hnamed a (by simp) p (by simp [ha, hp]) call hc) n
      have h2 := ih (backfillCallParts parts st).2
        (fun c hcm p hp call hc => hnamed c (List.mem_cons_of_mem a hcm) p hp call hc) n
      simp only [backfillCallContents, ha]
      rw [h2, h1]
      simp only [callIdsNamed_eq, List.flatMap_cons, callIdsNamedParts_append,
        List.append_assoc, Option.getD_some]
    | none =>
      have h2 := ih st
        (fun c hcm p hp call hc => hnamed c (List.mem_cons_of_mem a hcm) p hp call hc) n
      simp only [backfillCallContents, ha]
      rw [h2]
      simp only [callIdsNamed_eq, List.flatMap_cons, callIdsNamedParts_append, ha,
        Option.getD_none]
      simp [callIdsNamedParts]

/-- C7: after the two-pass backfill every functionCall part carries a
truthy id, and — when every call has a declaration name — the second
pass acts exactly as the FIFO specification: writing `Q0 n` for the
ordered list of functionCall ids with name `n` after the first pass,
each id-less functionResponse with name `n` receives the earliest
not-yet-consumed entry of `Q0 n`, first-in-first-out per name, so
repeated calls to the same tool are matched in order. -/
theorem c7_fifo_backfill (contents : List Content)
    (h : allCallsNamed contents = true) :
    (∀ c ∈ backfillToolCallIds contents, ∀ p ∈ c.parts.getD [], ∀ call,
      p.functionCall = some call → strTruthy call.id = true) ∧
    backfillToolCallIds contents =
      (fifoRespContents
        (fun n => callIdsNamed n (backfillCallContents contents ⟨0, fun _ => []⟩).1)
        (backfillCallContents contents ⟨0, fun _ => []⟩).1 (fun _ => 0)).1 := by
  have hnamed : ∀ c ∈ contents, ∀ p ∈ c.parts.getD [], ∀ call,
      p.functionCall = some call → call.name.isSome = true := by
    intro c hc p hp call hcall
    simp only [allCallsNamed, List.all_eq_true] at h
    have := h c hc p hp
    rw [hcall] at this
    exact this
  constructor
  · intro c hc p hp call hcall
    refine backfillRespContents_preserves_ids _ _ ?_ c hc p hp call hcall
    exact backfillCallContents_ids contents ⟨0, fun _ => []⟩
  · unfold backfillToolCallIds
    apply backfillRespContents_fifo
    intro n
    have := backfillCallContents_queue contents ⟨0, fun _ => []⟩ hnamed n
    simpa using this

theorem c7_fifo_backfill_witness :
    allCallsNamed c7RepeatedCallContents = true ∧
    ((∀ c ∈ backfillToolCallIds c7RepeatedCallContents, ∀ p ∈ c.parts.getD [], ∀ call,
      p.functionCall = some call → strTruthy call.id = true) ∧
    backfillToolCallIds c7RepeatedCallContents =
      (fifoRespContents
        (fun n => callIdsNamed n
          (backfillCallContents c7RepeatedCallContents ⟨0, fun _ => []⟩).1)
        (backfillCallContents c7RepeatedCallContents ⟨0, fun _ => []⟩).1
        (fun _ => 0)).1) :=
  ⟨by decide, c7_fifo_backfill c7RepeatedCallContents (by decide)⟩

theorem buildTokenIndex_nil : buildTokenIndex [] = fun _ => none := rfl

theorem buildEmailIndex_nil : buildEmailIndex [] = fun _ => none := rfl

theorem persist_first_save (parse : String → RefreshParts) (r : ExchangeSuccess)
    (now₁ : Nat) (h : (parse r.refresh).refreshToken ≠ "") :
    persistAccountPool parse [r] false none now₁ =
      some { version := 1, accounts := [freshAccountRecord parse r now₁],
             activeIndex := 0 } := by
  unfold persistAccountPool persistMergeOne
  simp only [List.isEmpty_cons, Bool.false_eq_true, if_false, Option.map_none',
    Option.getD_none, List.foldl_cons, List.foldl_nil]
  rw [if_neg h]
  simp only [buildTokenIndex_nil, buildEmailIndex_nil, ite_self, Option.none_orElse]
  simp [clampInt]


theorem buildTokenIndex_singleton (a : AccountMetadata) (x : String) :
    buildTokenIndex [a] x =
      if a.refreshToken ≠ "" ∧ x = a.refreshToken then some 0 else none := by
  simp only [buildTokenIndex, List.enum]
  by_cases h1 : a.refreshToken ≠ ""
  · by_cases h2 : x = a.refreshToken <;>
      simp [List.enumFrom, h1, h2]
  · have h1x : a.refreshToken = "" := by simpa using h1
    simp [List.enumFrom, h1, h1x]

theorem buildEmailIndex_singleton (a : AccountMetadata) (x : String) :
    buildEmailIndex [a] x =
      (match emailKey a with
       | some e => if x = e then some 0 else none
       | none => none) := by
  simp only [buildEmailIndex, List.enum]
  cases hk : emailKey a with
  | none => simp [List.enumFrom, hk]
  | some e => by_cases h2 : x = e <;> simp [List.enumFrom, hk, h2]

theorem persist_second_save (parse : String → RefreshParts) (r r₂ : ExchangeSuccess)
    (now₁ now₂ : Nat) (h : (parse r.refresh).refreshToken ≠ "")
    (h₂ : (parse r₂.refresh).refreshToken ≠ "")
    (hsameEmail : r₂.email = r.email)
    (hOr : strTruthy r.email = true ∨
      (parse r₂.refresh).refreshToken = (parse r.refresh).refreshToken) :
    persistAccountPool parse [r₂] false
        (some { version := 1, accounts := [freshAccountRecord parse r now₁],
                activeIndex := 0 }) now₂ =
      some { version := 1,
             accounts := [{ freshAccountRecord parse r now₁ with
               email := r₂.email <|> r.email,
               refreshToken := (parse r₂.refresh).refreshToken,
               projectId := (parse r₂.refresh).projectId <|> (parse r.refresh).projectId,
               managedProjectId :=
                 (parse r₂.refresh).managedProjectId <|> (parse r.refresh).managedProjectId,
               lastUsed := now₂ }],
             activeIndex := 0 } := by
  have hEB :
      ((if strTruthy r₂.email = true then
          buildEmailIndex [freshAccountRecord parse r now₁] (r₂.email.getD "")
        else none) <|>
        buildTokenIndex [freshAccountRecord parse r now₁]
          ((parse r₂.refresh).refreshToken)) = some 0 := by
    by_cases htr : strTruthy r₂.email = true
    · obtain ⟨e, he, hne⟩ : ∃ e, r.email = some e ∧ e ≠ "" := by
        rw [hsameEmail] at htr
        cases hre : r.email with
        | none => rw [hre] at htr; simp [strTruthy] at htr
        | some e =>
          rw [hre] at htr
          exact ⟨e, rfl, by simpa [strTruthy] using htr⟩
      have hk : emailKey (freshAccountRecord parse r now₁) = some e := by
        simp [freshAccountRecord, emailKey, he, hne]
      rw [htr]
      simp only [if_pos]
      rw [buildEmailIndex_singleton, hk, hsameEmail, he]
      simp
    · rcases hOr with htr2 | htok
      · rw [hsameEmail] at htr; exact absurd htr2 htr
      · simp only [htr, Bool.false_eq_true, if_false, Option.none_orElse]
        rw [buildTokenIndex_singleton]
        have : (freshAccountRecord parse r now₁).refreshToken =
            (parse r.refresh).refreshToken := rfl
        rw [if_pos]
        exact ⟨by simpa [this] using h, by simpa [this] using htok⟩
  unfold persistAccountPool persistMergeOne
  simp only [List.isEmpty_cons, Bool.false_eq_true, if_false, Option.map_some',
    Option.getD_some, List.foldl_cons, List.foldl_nil]
  rw [if_neg h₂]
  rw [hEB]
  simp only [List.getElem?_cons_zero, List.set_cons_zero]
  simp [clampInt, freshAccountRecord]

/-- C4: persisting the same successful OAuth exchange result twice in
merge mode yields a stored pool of exactly one account — the second
persist matches the stored record (by email when one is present,
otherwise by refresh token), overwrites the token and project fields,
keeps the rate-limit flags reset and bumps `lastUsed` to the new time
instead of appending — and a second exchange for the same email with a
rotated refresh token is likewise merged into the single record, whose
refresh token becomes the new one.  `parse` models `parseRefreshParts`
(missing source, see `RefreshParts`). -/
theorem c4_persist_twice_single_account (parse : String → RefreshParts)
    (r : ExchangeSuccess) (now₁ now₂ : Nat)
    (h : (parse r.refresh).refreshToken ≠ "") :
    persistAccountPool parse [r] false none now₁ =
      some { version := 1, accounts := [freshAccountRecord parse r now₁],
             activeIndex := 0 } ∧
    persistAccountPool parse [r] false
        (some { version := 1, accounts := [freshAccountRecord parse r now₁],
                activeIndex := 0 }) now₂ =
      some { version := 1,
             accounts := [{ freshAccountRecord parse r now₁ with lastUsed := now₂ }],
             activeIndex := 0 } ∧
    (∀ r₂ : ExchangeSuccess, (parse r₂.refresh).refreshToken ≠ "" →
      r₂.email = r.email → strTruthy r.email = true →
      persistAccountPool parse [r₂] false
          (some { version := 1, accounts := [freshAccountRecord parse r now₁],
                  activeIndex := 0 }) now₂ =
        some { version := 1,
               accounts := [{ freshAccountRecord parse r now₁ with
                 email := r₂.email <|> r.email,
                 refreshToken := (parse r₂.refresh).refreshToken,
                 projectId := (parse r₂.refresh).projectId <|> (parse r.refresh).projectId,
                 managedProjectId := (parse r₂.refresh).managedProjectId <|>
                   (parse r.refresh).managedProjectId,
                 lastUsed := now₂ }],
               activeIndex := 0 }) := by
  refine ⟨persist_first_save parse r now₁ h, ?_, ?_⟩
  · have := persist_second_save parse r r now₁ now₂ h h rfl (Or.inr rfl)
    rw [this]
    have he : (r.email <|> r.email) = r.email := orElse_self r.email
    have hp : ((parse r.refresh).projectId <|> (parse r.refresh).projectId) =
        (parse r.refresh).projectId := orElse_self _
    have hm : ((parse r.refresh).managedProjectId <|> (parse r.refresh).managedProjectId) =
        (parse r.refresh).managedProjectId := orElse_self _
    simp [freshAccountRecord, he, hp, hm]
  · intro r₂ h₂ hsame htr
    exact persist_second_save parse r r₂ now₁ now₂ h h₂ hsame (Or.inl htr)

theorem c4_persist_twice_single_account_witness :
    ((fun s => { refreshToken := s } : String → RefreshParts)
        (({ email := some "user@example.com", refresh := "tok" } :
          ExchangeSuccess).refresh)).refreshToken ≠ "" ∧
    (persistAccountPool (fun s => { refreshToken := s })
        [{ email := some "user@example.com", refresh := "tok" }] false none 5 =
      some { version := 1,
             accounts := [freshAccountRecord (fun s => { refreshToken := s })
               { email := some "user@example.com", refresh := "tok" } 5],
             activeIndex := 0 } ∧
    persistAccountPool (fun s => { refreshToken := s })
        [{ email := some "user@example.com", refresh := "tok" }] false
        (some { version := 1,
                accounts := [freshAccountRecord (fun s => { refreshToken := s })
                  { email := some "user@example.com", refresh := "tok" } 5],
                activeIndex := 0 }) 9 =
      some { version := 1,
             accounts := [{ freshAccountRecord (fun s => { refreshToken := s })
               { email := some "user@example.com", refresh := "tok" } 5 with
                 lastUsed := 9 }],
             activeIndex := 0 } ∧
    (∀ r₂ : ExchangeSuccess,
      ((fun s => ({ refreshToken := s } : RefreshParts)) r₂.refresh).refreshToken ≠ "" →
      r₂.email = ({ email := some "user@example.com", refresh := "tok" } :
        ExchangeSuccess).email →
      strTruthy ({ email := some "user@example.com", refresh := "tok" } :
        ExchangeSuccess).email = true →
      persistAccountPool (fun s => { refreshToken := s }) [r₂] false
          (some { version := 1,
                  accounts := [freshAccountRecord (fun s => { refreshToken := s })
                    { email := some "user@example.com", refresh := "tok" } 5],
                  activeIndex := 0 }) 9 =
        some { version := 1,
               accounts := [{ freshAccountRecord (fun s => { refreshToken := s })
                 { email := some "user@example.com", refresh := "tok" } 5 with
                   email := r₂.email <|> some "user@example.com",
                   refreshToken := r₂.refresh,
                   projectId := none <|> none,
                   managedProjectId := none <|> none,
                   lastUsed := 9 }],
               activeIndex := 0 })) :=
  ⟨by decide, c4_persist_twice_single_account (fun s => { refreshToken := s })
    { email := some "user@example.com", refresh := "tok" } 5 9 (by decide)⟩

theorem keepFilter_sublist {α : Type} (p : Nat → α → Bool) :
    ∀ (l : List α) (i : Nat), (keepFilter p l i).Sublist l := by
  intro l
  induction l with
  | nil => intro i; simp [keepFilter]
  | cons a t ih =>
    intro i
    unfold keepFilter
    by_cases h : p i a = true
    · simp only [h, if_pos]
      exact List.Sublist.cons₂ a (ih (i + 1))
    · simp only [h, Bool.false_eq_true, if_false]
      exact List.Sublist.cons a (ih (i + 1))

theorem keepFilter_filter {α : Type} (p : Nat → α → Bool) (q : α → Bool) :
    ∀ (l : List α) (i : Nat),
    (keepFilter p l i).filter q = keepFilter (fun k a => p k a && q a) l i := by
  intro l
  induction l with
  | nil => intro i; rfl
  | cons a t ih =>
    intro i
    unfold keepFilter
    by_cases hp : p i a = true
    · by_cases hq : q a = true
      · simp [hp, hq, List.filter_cons, ih (i + 1)]
      · simp [hp, hq, List.filter_cons, ih (i + 1)]
    · by_cases hq : q a = true
      · simp [hp, hq, ih (i + 1)]
      · simp [hp, hq, ih (i + 1)]

theorem keepFilter_eq_nil {α : Type} (p : Nat → α → Bool) :
    ∀ (l : List α) (i : Nat),
    (∀ k b, l[k]? = some b → p (i + k) b = false) → keepFilter p l i = [] := by
  intro l
  induction l with
  | nil => intro i _; rfl
  | cons a t ih =>
    intro i hf
    unfold keepFilter
    have h0 : p i a = false := by
      have := hf 0 a (by simp)
      simpa using this
    simp only [h0, Bool.false_eq_true, if_false]
    apply ih
    intro k b hb
    have := hf (k + 1) b (by simpa using hb)
    simpa [Nat.add_assoc, Nat.add_comm 1 k] using this

theorem keepFilter_eq_singleton {α : Type} (p : Nat → α → Bool) (x : α) (j : Nat) :
    ∀ (l : List α) (i : Nat),
    (∃ k, l[k]? = some x ∧ i + k = j ∧ p j x = true) →
    (∀ k b, l[k]? = some b → p (i + k) b = true → i + k = j ∧ b = x) →
    keepFilter p l i = [x] := by
  intro l
  induction l with
  | nil =>
    intro i hex _
    obtain ⟨k, hk, -, -⟩ := hex
    simp at hk
  | cons a t ih =>
    intro i hex huniq
    obtain ⟨k, hk, hik, hpx⟩ := hex
    unfold keepFilter
    cases k with
    | zero =>
      simp only [List.getElem?_cons_zero, Option.some.injEq] at hk
      subst hk
      rw [Nat.add_zero] at hik
      subst hik
      simp only [hpx, if_pos]
      have : keepFilter p t (i + 1) = [] := by
        apply keepFilter_eq_nil
        intro k b hb
        by_cases hp : p (i + 1 + k) b = true
        · have := huniq (k + 1) b (by simpa using hb)
            (by simpa [Nat.add_assoc, Nat.add_comm 1 k] using hp)
          omega
        · simpa using hp
      rw [this]
    | succ s =>
      simp only [List.getElem?_cons_succ] at hk
      have hpa : p i a = false := by
        by_cases hp : p i a = true
        · have := huniq 0 a (by simp) (by simpa using hp)
          omega
        · simpa using hp
      simp only [hpa, Bool.false_eq_true, if_false]
      apply ih
      · exact ⟨s, hk, by omega, hpx⟩
      · intro k b hb hp
        have := huniq (k + 1) b (by simpa using hb)
          (by simpa [Nat.add_assoc, Nat.add_comm 1 k] using hp)
        constructor
        · omega
        · exact this.2

theorem keepFilter_eq_self {α : Type} (p : Nat → α → Bool) :
    ∀ (l : List α) (i : Nat),
    (∀ k b, l[k]? = some b → p (i + k) b = true) → keepFilter p l i = l := by
  intro l
  induction l with
  | nil => intro i _; rfl
  | cons a t ih =>
    intro i hf
    unfold keepFilter
    have h0 : p i a = true := by
      have := hf 0 a (by simp)
      simpa using this
    simp only [h0, if_pos]
    rw [ih (i + 1)]
    intro k b hb
    have := hf (k + 1) b (by simpa using hb)
    simpa [Nat.add_assoc, Nat.add_comm 1 k] using this

theorem keepFilter_length_le_one {α : Type} (p : Nat → α → Bool) :
    ∀ (l : List α) (i : Nat),
    (∀ k₁ b₁ k₂ b₂, l[k₁]? = some b₁ → l[k₂]? = some b₂ →
      p (i + k₁) b₁ = true → p (i + k₂) b₂ = true → k₁ = k₂) →
    (keepFilter p l i).length ≤ 1 := by
  intro l
  induction l with
  | nil => intro i _; simp [keepFilter]
  | cons a t ih =>
    intro i huniq
    unfold keepFilter
    by_cases hp : p i a = true
    · simp only [hp, if_pos, List.length_cons]
      have : keepFilter p t (i + 1) = [] := by
        apply keepFilter_eq_nil
        intro k b hb
        by_cases hq : p (i + 1 + k) b = true
        · have := huniq 0 a (k + 1) b (by simp) (by simpa using hb)
            (by simpa using hp)
            (by simpa [Nat.add_assoc, Nat.add_comm 1 k] using hq)
          omega
        · simpa using hq
      rw [this]
      simp
    · simp only [hp, Bool.false_eq_true, if_false]
      apply ih
      intro k₁ b₁ k₂ b₂ h1 h2 hp1 hp2
      have := huniq (k₁ + 1) b₁ (k₂ + 1) b₂ (by simpa using h1) (by simpa using h2)
        (by simpa [Nat.add_assoc, Nat.add_comm 1 k₁] using hp1)
        (by simpa [Nat.add_assoc, Nat.add_comm 1 k₂] using hp2)
      omega

theorem two_le_filter_length {α : Type} (q : α → Bool) :
    ∀ (l : List α) (i j : Nat) (a b : α), i ≠ j →
    l[i]? = some a → l[j]? = some b → q a = true → q b = true →
    2 ≤ (l.filter q).length := by
  intro l
  induction l with
  | nil => intro i j a b _ ha; simp at ha
  | cons c t ih =>
    intro i j a b hij ha hb hqa hqb
    cases i with
    | zero =>
      simp only [List.getElem?_cons_zero, Option.some.injEq] at ha
      subst ha
      cases j with
      | zero => omega
      | succ sj =>
        simp only [List.getElem?_cons_succ] at hb
        have hbmem : b ∈ t := List.getElem?_mem hb
        have : b ∈ t.filter q := List.mem_filter.mpr ⟨hbmem, hqb⟩
        have hlen : 1 ≤ (t.filter q).length := by
          cases hfe : t.filter q with
          | nil => rw [hfe] at this; simp at this
          | cons _ _ => simp [hfe]
        simp only [List.filter_cons, hqa, if_pos, List.length_cons]
        omega
    | succ si =>
      cases j with
      | zero =>
        simp only [List.getElem?_cons_zero, Option.some.injEq] at hb
        subst hb
        simp only [List.getElem?_cons_succ] at ha
        have hamem : a ∈ t := List.getElem?_mem ha
        have : a ∈ t.filter q := List.mem_filter.mpr ⟨hamem, hqa⟩
        have hlen : 1 ≤ (t.filter q).length := by
          cases hfe : t.filter q with
          | nil => rw [hfe] at this; simp at this
          | cons _ _ => simp [hfe]
        simp only [List.filter_cons, hqb, if_pos, List.length_cons]
        omega
      | succ sj =>
        simp only [List.getElem?_cons_succ] at ha hb
        have := ih si sj a b (by omega) ha hb hqa hqb
        by_cases hqc : q c = true
        · simp only [List.filter_cons, hqc, if_pos, List.length_cons]
          omega
        · simp only [List.filter_cons, hqc, Bool.false_eq_true, if_false]
          omega

theorem accIsNewer_irrefl (a : AccountMetadata) : accIsNewer a a = false := by
  simp [accIsNewer]

theorem accIsNewer_eq_true_iff (a b : AccountMetadata) :
    accIsNewer a b = true ↔
      (b.lastUsed < a.lastUsed ∨
        (a.lastUsed = b.lastUsed ∧ b.addedAt < a.addedAt)) := by
  simp [accIsNewer, Bool.or_eq_true, Bool.and_eq_true, decide_eq_true_eq, beq_iff_eq]

theorem accIsNewer_asymm (a b : AccountMetadata) (h : accIsNewer a b = true) :
    accIsNewer b a = false := by
  rw [accIsNewer_eq_true_iff] at h
  cases hba : accIsNewer b a
  · rfl
  · exfalso
    have h2 := (accIsNewer_eq_true_iff b a).mp hba
    omega

theorem accIsNewer_le_trans (a b c : AccountMetadata)
    (hab : accIsNewer a b = false) (hcb : accIsNewer c b = true) :
    accIsNewer a c = false := by
  cases hac : accIsNewer a c
  · rfl
  · exfalso
    have h1 := (accIsNewer_eq_true_iff a c).mp hac
    have h2 := (accIsNewer_eq_true_iff c b).mp hcb
    have h3 : ¬(b.lastUsed < a.lastUsed ∨
        (a.lastUsed = b.lastUsed ∧ b.addedAt < a.addedAt)) := by
      rw [← accIsNewer_eq_true_iff]
      simp [hab]
    omega

theorem dedupInv_skip (accounts : List AccountMetadata) (i : Nat)
    (m : String → Option Nat) (a : AccountMetadata)
    (hai : accounts[i]? = some a) (hk : emailKey a = none)
    (hinv : DedupInv accounts i m) : DedupInv accounts (i + 1) m := by
  intro e
  obtain ⟨h1, h2⟩ := hinv e
  constructor
  · intro j hj
    obtain ⟨hjlt, w, hw, hwk, hmax⟩ := h1 j hj
    refine ⟨by omega, w, hw, hwk, ?_⟩
    intro k b hkb hgb hke
    by_cases hki : k = i
    · subst hki
      rw [hai] at hgb
      injection hgb with hgb
      subst hgb
      rw [hk] at hke
      cases hke
    · exact hmax k b (by omega) hgb hke
  · intro hn k b hkb hgb hke
    by_cases hki : k = i
    · subst hki
      rw [hai] at hgb
      injection hgb with hgb
      subst hgb
      rw [hk] at hke
      cases hke
    · exact h2 hn k b (by omega) hgb hke

theorem dedupInv_update (accounts : List AccountMetadata) (i : Nat)
    (m : String → Option Nat) (a : AccountMetadata) (e0 : String)
    (hai : accounts[i]? = some a) (hk : emailKey a = some e0)
    (hinv : DedupInv accounts i m)
    (hmax : ∀ k b, k < i → accounts[k]? = some b → emailKey b = some e0 →
      accIsNewer b a = false) :
    DedupInv accounts (i + 1) (fun x => if x = e0 then some i else m x) := by
  intro e
  constructor
  · intro j hj
    by_cases hx : e = e0
    · subst hx
      simp only [if_pos] at hj
      injection hj with hj
      subst hj
      refine ⟨by omega, a, hai, hk, ?_⟩
      intro k b hkb hgb hke
      by_cases hki : k = i
      · subst hki
        rw [hai] at hgb
        injection hgb with hgb
        subst hgb
        exact accIsNewer_irrefl a
      · exact hmax k b (by omega) hgb hke
    · simp only [hx, if_neg, if_false] at hj
      obtain ⟨hjlt, w, hw, hwk, hmaxw⟩ := (hinv e).1 j hj
      refine ⟨by omega, w, hw, hwk, ?_⟩
      intro k b hkb hgb hke
      by_cases hki : k = i
      · subst hki
        rw [hai] at hgb
        injection hgb with hgb
        subst hgb
        rw [hk] at hke
        injection hke with hke
        exact absurd hke.symm hx
      · exact hmaxw k b (by omega) hgb hke
  · intro hn k b hkb hgb hke
    by_cases hx : e = e0
    · subst hx
      simp at hn
    · simp only [hx, if_neg, if_false] at hn
      by_cases hki : k = i
      · subst hki
        rw [hai] at hgb
        injection hgb with hgb
        subst hgb
        rw [hk] at hke
        injection hke with hke
        exact hx hke.symm
      · exact (hinv e).2 hn k b (by omega) hgb hke

theorem dedupInv_keep (accounts : List AccountMetadata) (i : Nat)
    (m : String → Option Nat) (a : AccountMetadata) (e0 : String) (j0 : Nat)
    (existing : AccountMetadata)
    (hai : accounts[i]? = some a) (hk : emailKey a = some e0)
    (hinv : DedupInv accounts i m)
    (hme : m e0 = some j0) (hje : accounts[j0]? = some existing)
    (hnotnew : accIsNewer a existing = false) :
    DedupInv accounts (i + 1) m := by
  intro e
  constructor
  · intro j hj
    obtain ⟨hjlt, w, hw, hwk, hmaxw⟩ := (hinv e).1 j hj
    refine ⟨by omega, w, hw, hwk, ?_⟩
    intro k b hkb hgb hke
    by_cases hki : k = i
    · subst hki
      rw [hai] at hgb
      injection hgb with hgb
      subst hgb
      rw [hk] at hke
      injection hke with hke
      subst hke
      rw [hme] at hj
      injection hj with hj
      subst hj
      rw [hje] at hw
      injection hw with hw
      subst hw
      exact hnotnew
    · exact hmaxw k b (by omega) hgb hke
  · intro hn k b hkb hgb hke
    by_cases hki : k = i
    · subst hki
      rw [hai] at hgb
      injection hgb with hgb
      subst hgb
      rw [hk] at hke
      injection hke with hke
      subst hke
      rw [hme] at hn
      cases hn
    · exact (hinv e).2 hn k b (by omega) hgb hke

theorem dedupBestIndexAux_inv (accounts : List AccountMetadata) :
    ∀ (l : List AccountMetadata) (i : Nat) (m : String → Option Nat),
    accounts.drop i = l → DedupInv accounts i m →
    DedupInv accounts (i + l.length) (dedupBestIndexAux accounts l i m) := by
  intro l
  induction l with
  | nil =>
    intro i m _ hinv
    simpa [dedupBestIndexAux] using hinv
  | cons a t ih =>
    intro i m hdrop hinv
    obtain ⟨hai, hdt⟩ := drop_cons_getElem accounts i a t hdrop
    have harith : i + (a :: t).length = (i + 1) + t.length := by
      simp [List.length_cons]; omega
    rw [harith]
    cases hk : emailKey a with
    | none =>
      have hstep := dedupInv_skip accounts i m a hai hk hinv
      have := ih (i + 1) m hdt hstep
      simpa [dedupBestIndexAux, hk] using this
    | some e0 =>
      cases hme : m e0 with
      | none =>
        have hmax : ∀ k b, k < i → accounts[k]? = some b → emailKey b = some e0 →
            accIsNewer b a = false := by
          intro k b hkb hgb hke
          exact absurd hke ((hinv e0).2 hme k b hkb hgb)
        have hstep := dedupInv_update accounts i m a e0 hai hk hinv hmax
        have := ih (i + 1) (fun x => if x = e0 then some i else m x) hdt hstep
        simpa [dedupBestIndexAux, hk, hme] using this
      | some j =>
        obtain ⟨hjlt, existing, hje, hjk, hmaxj⟩ := (hinv e0).1 j hme
        cases haj : accounts[j]? with
        | none => rw [haj] at hje; cases hje
        | some existing2 =>
          rw [haj] at hje
          injection hje with hje
          subst hje
          by_cases hnew : accIsNewer a existing2 = true
          · have hmax : ∀ k b, k < i → accounts[k]? = some b →
                emailKey b = some e0 → accIsNewer b a = false := by
              intro k b hkb hgb hke
              exact accIsNewer_le_trans b existing2 a
                (hmaxj k b hkb hgb hke) hnew
            have hstep := dedupInv_update accounts i m a e0 hai hk hinv hmax
            have := ih (i + 1) (fun x => if x = e0 then some i else m x) hdt hstep
            simpa [dedupBestIndexAux, hk, hme, haj, hnew] using this
          · have hnotnew : accIsNewer a existing2 = false := by
              simpa using hnew
            have hstep := dedupInv_keep accounts i m a e0 j existing2 hai hk hinv
              hme haj hnotnew
            have := ih (i + 1) m hdt hstep
            simpa [dedupBestIndexAux, hk, hme, haj, hnew] using this

theorem dedupBestIndex_inv (accounts : List AccountMetadata) :
    DedupInv accounts accounts.length (dedupBestIndex accounts) := by
  have init : DedupInv accounts 0 (fun _ => none) := by
    intro e
    constructor
    · intro j hj; cases hj
    · intro _ k b hkb _ _; omega
  have := dedupBestIndexAux_inv accounts accounts 0 (fun _ => none) rfl init
  simpa [dedupBestIndex] using this

theorem dedupBestIndex_exists (accounts : List AccountMetadata) (k : Nat)
    (b : AccountMetadata) (e : String)
    (hkb : accounts[k]? = some b) (hke : emailKey b = some e) :
    ∃ j, dedupBestIndex accounts e = some j := by
  cases hm : dedupBestIndex accounts e with
  | some j => exact ⟨j, rfl⟩
  | none =>
    have hklen : k < accounts.length := by
      by_contra hc
      rw [List.getElem?_eq_none (by omega)] at hkb
      cases hkb
    exact absurd hke (((dedupBestIndex_inv accounts) e).2 hm k b hklen hkb)

theorem getElem?_some_lt {α : Type} (l : List α) (k : Nat) (b : α)
    (h : l[k]? = some b) : k < l.length :=
  (List.getElem?_eq_some.mp h).1

theorem dedupKeptIndex_email (accounts : List AccountMetadata) (k : Nat)
    (b : AccountMetadata) (e : String)
    (hkb : accounts[k]? = some b) (hke : emailKey b = some e)
    (hkeep : dedupKeptIndex accounts k = true) :
    dedupBestIndex accounts e = some k := by
  unfold dedupKeptIndex at hkeep
  rw [hkb] at hkeep
  have hkeep2 : ((emailKey b).isNone ||
      (accounts.filterMap emailKey).any
        (fun x => dedupBestIndex accounts x == some k)) = true := by
    simpa using hkeep
  rw [hke] at hkeep2
  simp only [Option.isNone_some, Bool.false_or, List.any_eq_true] at hkeep2
  obtain ⟨e2, _, hbest⟩ := hkeep2
  have hbest2 : dedupBestIndex accounts e2 = some k := by simpa using hbest
  obtain ⟨_, w, hw, hwk, _⟩ := (dedupBestIndex_inv accounts e2).1 k hbest2
  rw [hkb] at hw
  injection hw with hw
  subst hw
  rw [hke] at hwk
  injection hwk with hwk
  rw [hwk]
  exact hbest2

theorem dedupKeptIndex_of_best (accounts : List AccountMetadata) (j : Nat) (e : String)
    (hbest : dedupBestIndex accounts e = some j) :
    dedupKeptIndex accounts j = true := by
  obtain ⟨_, w, hw, hwk, _⟩ := (dedupBestIndex_inv accounts e).1 j hbest
  unfold dedupKeptIndex
  rw [hw]
  simp only [Bool.or_eq_true, List.any_eq_true]
  right
  refine ⟨e, ?_, by simp [hbest]⟩
  exact List.mem_filterMap.mpr ⟨w, List.getElem?_mem hw, hwk⟩

theorem dedupKeptIndex_emailless (accounts : List AccountMetadata) (k : Nat)
    (b : AccountMetadata) (hkb : accounts[k]? = some b) (hke : emailKey b = none) :
    dedupKeptIndex accounts k = true := by
  unfold dedupKeptIndex
  rw [hkb]
  simp [hke]

theorem keepFilter_and_eq_filter {α : Type} (p : Nat → α → Bool) (q : α → Bool) :
    ∀ (l : List α) (i : Nat),
    (∀ k a, l[k]? = some a → q a = true → p (i + k) a = true) →
    keepFilter (fun k a => p k a && q a) l i = l.filter q := by
  intro l
  induction l with
  | nil => intro i _; rfl
  | cons a t ih =>
    intro i hf
    unfold keepFilter
    by_cases hq : q a = true
    · have hp : p i a = true := by
        have := hf 0 a (by simp) hq
        simpa using this
      simp only [hp, hq, Bool.and_self, if_pos, List.filter_cons]
      rw [ih (i + 1)]
      intro k b hb hqb
      have := hf (k + 1) b (by simpa using hb) hqb
      simpa [Nat.add_assoc, Nat.add_comm 1 k] using this
    · simp only [hq, Bool.and_false, Bool.false_eq_true, if_false, List.filter_cons]
      rw [ih (i + 1)]
      intro k b hb hqb
      have := hf (k + 1) b (by simpa using hb) hqb
      simpa [Nat.add_assoc, Nat.add_comm 1 k] using this

/-- C3: whenever a record `r` with email `e` is strictly newer (greater
`lastUsed`, ties broken by greater `addedAt`) than every other record
sharing that email, deduplication keeps exactly `r` among the records
with email `e`; and the records without an email survive deduplication
unchanged, in order. -/
theorem c3_dedup_keeps_newest (accounts : List AccountMetadata) (e : String)
    (r : AccountMetadata) (hr : r ∈ accounts) (hre : emailKey r = some e)
    (hmax : ∀ s ∈ accounts, emailKey s = some e → s = r ∨ accIsNewer r s = true) :
    (deduplicateAccountsByEmail accounts).filter (fun a => emailKey a == some e) =
      [r] ∧
    (deduplicateAccountsByEmail accounts).filter (fun a => (emailKey a).isNone) =
      accounts.filter (fun a => (emailKey a).isNone) := by
  constructor
  · obtain ⟨kr, hkr⟩ := List.getElem?_of_mem hr
    obtain ⟨j, hbest⟩ := dedupBestIndex_exists accounts kr r e hkr hre
    obtain ⟨hjlt, w, hw, hwk, hmaxw⟩ := (dedupBestIndex_inv accounts e).1 j hbest
    have hwr : w = r := by
      rcases hmax w (List.getElem?_mem hw) hwk with h | h
      · exact h
      · have hklen : kr < accounts.length := getElem?_some_lt accounts kr r hkr
        have hfalse := hmaxw kr r hklen hkr hre
        rw [h] at hfalse
        cases hfalse
    subst hwr
    unfold deduplicateAccountsByEmail
    rw [keepFilter_filter]
    apply keepFilter_eq_singleton _ w j
    · refine ⟨j, hw, by omega, ?_⟩
      simp only [Bool.and_eq_true, beq_iff_eq]
      exact ⟨dedupKeptIndex_of_best accounts j e hbest, hwk⟩
    · intro k b hb hp
      simp only [Bool.and_eq_true, beq_iff_eq] at hp
      obtain ⟨hkeep, hkey⟩ := hp
      have hkeep2 : dedupKeptIndex accounts k = true := by simpa using hkeep
      have := dedupKeptIndex_email accounts k b e hb hkey hkeep2
      rw [this] at hbest
      injection hbest with hbest
      subst hbest
      rw [hb] at hw
      injection hw with hw
      exact ⟨by omega, hw⟩
  · unfold deduplicateAccountsByEmail
    rw [keepFilter_filter]
    apply keepFilter_and_eq_filter
    intro k a hka hq
    have hkey : emailKey a = none := by
      cases hkk : emailKey a
      · rfl
      · rw [hkk] at hq; simp at hq
    exact dedupKeptIndex_emailless accounts (0 + k) a (by simpa using hka) hkey

theorem dedup_filter_email_le_one (accounts : List AccountMetadata) (e : String) :
    ((deduplicateAccountsByEmail accounts).filter
      (fun a => emailKey a == some e)).length ≤ 1 := by
  unfold deduplicateAccountsByEmail
  rw [keepFilter_filter]
  apply keepFilter_length_le_one
  intro k₁ b₁ k₂ b₂ h1 h2 hp1 hp2
  simp only [Bool.and_eq_true, beq_iff_eq] at hp1 hp2
  have e1 := dedupKeptIndex_email accounts k₁ b₁ e h1 hp1.2 (by simpa using hp1.1)
  have e2 := dedupKeptIndex_email accounts k₂ b₂ e h2 hp2.2 (by simpa using hp2.1)
  rw [e1] at e2
  injection e2

theorem dedup_eq_self_of_unique (accounts : List AccountMetadata)
    (h : ∀ e, (accounts.filter (fun a => emailKey a == some e)).length ≤ 1) :
    deduplicateAccountsByEmail accounts = accounts := by
  unfold deduplicateAccountsByEmail
  apply keepFilter_eq_self
  intro k b hkb
  show dedupKeptIndex accounts (0 + k) = true
  rw [Nat.zero_add]
  cases hke : emailKey b with
  | none => exact dedupKeptIndex_emailless accounts k b hkb hke
  | some e =>
    obtain ⟨j, hbest⟩ := dedupBestIndex_exists accounts k b e hkb hke
    obtain ⟨hjlt, w, hw, hwk, _⟩ := (dedupBestIndex_inv accounts e).1 j hbest
    by_cases hjk : j = k
    · subst hjk
      exact dedupKeptIndex_of_best accounts j e hbest
    · exfalso
      have h2 := two_le_filter_length (fun a => emailKey a == some e) accounts j k w b
        hjk hw hkb (by simp [hwk]) (by simp [hke])
      have := h e
      omega

/-- C10: `deduplicateAccountsByEmail` returns a subsequence of its input
(every kept record appears in the input, in the same relative order, and
the output is never longer), and it is idempotent: applying it twice
yields the same result as applying it once. -/
theorem c10_dedup_idempotent_subsequence (accounts : List AccountMetadata) :
    (deduplicateAccountsByEmail accounts).Sublist accounts ∧
    (deduplicateAccountsByEmail accounts).length ≤ accounts.length ∧
    deduplicateAccountsByEmail (deduplicateAccountsByEmail accounts) =
      deduplicateAccountsByEmail accounts := by
  have hsub : (deduplicateAccountsByEmail accounts).Sublist accounts :=
    keepFilter_sublist _ accounts 0
  refine ⟨hsub, hsub.length_le, ?_⟩
  exact dedup_eq_self_of_unique (deduplicateAccountsByEmail accounts)
    (fun e => dedup_filter_email_le_one accounts e)

theorem c3_dedup_keeps_newest_witness :
    (let old : AccountMetadata :=
      { email := some "user@example.com", refreshToken := "old-token",
        addedAt := 1000, lastUsed := 1000 }
    let newer : AccountMetadata :=
      { email := some "user@example.com", refreshToken := "new-token",
        addedAt := 2000, lastUsed := 3000 }
    let noEmail : AccountMetadata := { refreshToken := "anon", addedAt := 1, lastUsed := 1 }
    newer ∈ [old, noEmail, newer] ∧
    emailKey newer = some "user@example.com" ∧
    (∀ s ∈ [old, noEmail, newer], emailKey s = some "user@example.com" →
      s = newer ∨ accIsNewer newer s = true) ∧
    ((deduplicateAccountsByEmail [old, noEmail, newer]).filter
        (fun a => emailKey a == some "user@example.com") = [newer] ∧
      (deduplicateAccountsByEmail [old, noEmail, newer]).filter
        (fun a => (emailKey a).isNone) =
        [old, noEmail, newer].filter (fun a => (emailKey a).isNone))) :=
  ⟨by decide, by decide, by decide,
    c3_dedup_keeps_newest _ "user@example.com" _ (by decide) (by decide) (by decide)⟩
